import Mathlib

/-!
Verification development for the `repo-sync.py` synchronization script of the
python-social-auth organization.  Python strings are embedded as `List Char`
(`PyStr`), Python `dict` (insertion ordered) as association lists, and the
filesystem touched by `Repository.update_files` as an association list from
(repository directory, relative path) to file content.  The git subprocess
interactions of `Repository.commit` are modelled by a small state machine
recording which git commands are issued.
-/

/-- Python strings, embedded as explicit character lists. -/
abbrev PyStr := List Char

/-- The characters Python's `str.strip()` removes (the Unicode whitespace
class used by `str.strip` with no argument). -/
def isPyWS (c : Char) : Bool :=
  c = ' ' || c = '\t' || c = '\n' || c = '\x0b' || c = '\x0c' || c = '\r' ||
  c = '\x1c' || c = '\x1d' || c = '\x1e' || c = '\x1f' || c = '\x85' ||
  c = '\xa0' || c = '\u1680' || ('\u2000' ≤ c && c ≤ '\u200a') ||
  c = '\u2028' || c = '\u2029' || c = '\u202f' || c = '\u205f' || c = '\u3000'

/-- The line boundary characters of Python's `str.splitlines()`. -/
def isLineBreak (c : Char) : Bool :=
  c = '\n' || c = '\r' || c = '\x0b' || c = '\x0c' ||
  c = '\x1c' || c = '\x1d' || c = '\x1e' || c = '\x85' ||
  c = '\u2028' || c = '\u2029'

/-- Python `s.startswith(p)`. -/
def pyStartsWith (p s : PyStr) : Bool := p.isPrefixOf s

/-- A string containing no line boundary character (e.g. any single line
produced by `splitlines`). -/
def breakFree (s : PyStr) : Prop := ∀ c ∈ s, isLineBreak c = false

/-- A string whose only line boundary characters are plain `'\n'`. -/
def onlyNL (s : PyStr) : Prop := ∀ c ∈ s, isLineBreak c = true → c = '\n'

/-- Python `s.lstrip()`. -/
def lstrip (s : PyStr) : PyStr := s.dropWhile isPyWS

/-- Python `s.rstrip()`. -/
def rstrip (s : PyStr) : PyStr := (s.reverse.dropWhile isPyWS).reverse

/-- Python `s.strip()`. -/
def pyStrip (s : PyStr) : PyStr := rstrip (lstrip s)

/-- Python `"\n".join(ls)`. -/
def joinNL : List PyStr → PyStr
  | [] => []
  | [s] => s
  | s :: rest => s ++ '\n' :: joinNL rest

/-- Split a string at every `'\n'` into its (always nonempty) list of
segments; the plain inverse of `joinNL`. -/
def segsNL : PyStr → List PyStr
  | [] => [[]]
  | c :: rest =>
    if c = '\n' then [] :: segsNL rest
    else
      match segsNL rest with
      | s :: ss => (c :: s) :: ss
      | [] => [[c]]

/-- The automaton behind Python `str.splitlines()`: `cur` is the reversed
current line, `afterCR` records that the previous character was `'\r'`
(so that a following `'\n'` is part of the same `"\r\n"` boundary). -/
def slGo : List Char → List Char → Bool → List PyStr
  | [], cur, _ => if cur.isEmpty then [] else [cur.reverse]
  | c :: rest, cur, afterCR =>
    if c = '\n' then
      if afterCR then slGo rest [] false else cur.reverse :: slGo rest [] false
    else if c = '\r' then cur.reverse :: slGo rest [] true
    else if isLineBreak c then cur.reverse :: slGo rest [] false
    else slGo rest (c :: cur) false

/-- Python `text.splitlines()`. -/
def splitlines (s : PyStr) : List PyStr := slGo s [] false

/-- The ordered section mapping held in `Readme.sections`: heading line
(with marker) to body text, in insertion order. -/
abbrev Sections := List (PyStr × PyStr)

/-- Python `key in dict`. -/
def containsKey (s : Sections) (k : PyStr) : Bool := s.any (fun p => p.1 == k)

/-- Python ordered-`dict` assignment `d[k] = v`: updating an existing key
keeps its original position, a new key is appended at the end. -/
def insertOD (s : Sections) (k v : PyStr) : Sections :=
  if containsKey s k then s.map (fun p => if p.1 == k then (p.1, v) else p)
  else s ++ [(k, v)]

/-- Python `dict.get`-style lookup (first, hence unique, occurrence). -/
def lookupOD : Sections → PyStr → Option PyStr
  | [], _ => none
  | p :: rest, k => if p.1 == k then some p.2 else lookupOD rest k

/-- The key sequence of the ordered mapping. -/
def keysOD (s : Sections) : List PyStr := s.map (·.1)

/-- Record the pending section (if any) into the mapping: the
`if section: self.sections[section] = "\n".join(content)` step. -/
def flushSection : Option PyStr → List PyStr → Sections → Sections
  | none, _, acc => acc
  | some sec, content, acc => insertOD acc sec (joinNL content)

/-- The loop of `Readme.load_existing` over the lines of the file. -/
def loadGo : Option PyStr → List PyStr → Sections → List PyStr → Sections
  | sec, content, acc, [] => flushSection sec content acc
  | sec, content, acc, line :: rest =>
    if pyStartsWith ['#'] line then
      loadGo (some line) [] (flushSection sec content acc) rest
    else
      loadGo sec (content ++ [line]) acc rest

/-- `Readme.load_existing`, starting from the line list. -/
def loadLines (lines : List PyStr) : Sections := loadGo none [] [] lines

/-- `Readme.load_existing`: parse file text into the ordered section map. -/
def Readme.load_existing (text : PyStr) : Sections := loadLines (splitlines text)

/-- The `README_SECTIONS` allow-list of the script. -/
def README_SECTIONS : List PyStr :=
  ["## Documentation", "## Contributing", "## Versioning", "## License",
   "## Donations"].map String.toList

/-- The body of one iteration of the `Readme.update` loop, processing the
base entry `(sec, content)` against the target mapping `self`. -/
def updateStep (self : Sections) (sec content : PyStr) : Sections :=
  if pyStartsWith "# ".toList sec then
    self.map (fun p => if pyStartsWith "# ".toList p.1 then (p.1, content) else p)
  else if README_SECTIONS.contains sec && containsKey self sec then
    insertOD self sec content
  else self

/-- `Readme.update`: fold the base's sections over the target mapping. -/
def Readme.update (self base : Sections) : Sections :=
  base.foldl (fun acc p => updateStep acc p.1 p.2) self

/-- `Readme.save`: serialize the ordered mapping back to file text. -/
def Readme.save (s : Sections) : PyStr :=
  joinNL (s.map (fun p => pyStrip p.1 ++ '\n' :: '\n' :: pyStrip p.2 ++ ['\n']))

/-- The content written by `Repository.update_readme` for one existing
README file whose current content is `text`. -/
def Repository.update_readme (text : PyStr) (base : Sections) : PyStr :=
  Readme.save (Readme.update (Readme.load_existing text) base)

/-- First-occurrence deduplication (the key order of a Python dict built by
repeated assignment). -/
def dedupFirst : List PyStr → List PyStr
  | [] => []
  | l :: rest => l :: dedupFirst (rest.filter (fun x => !(x == l)))
termination_by ls => ls.length
decreasing_by
  simp only [List.length_cons]
  exact Nat.lt_succ_of_le (List.length_filter_le _ _)

/-- The body following the last occurrence of line `h` in `lines`: all lines
up to (excluding) the next heading line, joined with newlines. -/
def lastBody : List PyStr → PyStr → Option PyStr
  | [], _ => none
  | l :: rest, h =>
    match lastBody rest h with
    | some b => some b
    | none =>
      if l == h then
        some (joinNL (rest.takeWhile (fun x => !(pyStartsWith ['#'] x))))
      else none

/-- The value attached to the last occurrence of key `k`. -/
def lookupLast : Sections → PyStr → Option PyStr
  | [], _ => none
  | p :: rest, k =>
    match lookupLast rest k with
    | some v => some v
    | none => if p.1 == k then some p.2 else none

/-- The content of the last top-level (`"# "`) section of a mapping. -/
def lastTop : Sections → Option PyStr
  | [] => none
  | p :: rest =>
    match lastTop rest with
    | some v => some v
    | none => if pyStartsWith "# ".toList p.1 then some p.2 else none

/-- The line list of `Readme.save s` (proved below to equal
`splitlines (Readme.save s)` for mappings produced by parsing). -/
def savedLines : Sections → List PyStr
  | [] => []
  | p :: rest =>
    pyStrip p.1 ::
      (([] : PyStr) :: segsNL (pyStrip p.2) ++
        (if rest.isEmpty then [] else [([] : PyStr)])) ++
      savedLines rest

/-- The section mapping obtained by re-parsing `Readme.save s` (proved below
under the stated side conditions). -/
def reparsed : Sections → Sections
  | [] => []
  | p :: rest =>
    (pyStrip p.1,
      '\n' :: (pyStrip p.2 ++ if rest.isEmpty then [] else ['\n'])) ::
    reparsed rest

/-- The filesystem state touched by `Repository.update_files`: a finite map
from (repository directory name, relative file path) to file content.  The
base repository's checkout is the directory named by `baseRepoName`. -/
abbrev FS := List ((String × String) × String)

/-- File lookup (first matching entry). -/
def fsLookup : FS → String × String → Option String
  | [], _ => none
  | e :: rest, k => if e.1 = k then some e.2 else fsLookup rest k

/-- Writing a file: an existing path keeps its position, a new path is
appended. -/
def fsWrite (k : String × String) (v : String) (fs : FS) : FS :=
  if fs.any (fun e => e.1 = k) then
    fs.map (fun e => if e.1 = k then (e.1, v) else e)
  else fs ++ [(k, v)]

/-- `Path.unlink`: remove the path if present. -/
def fsErase (k : String × String) (fs : FS) : FS :=
  fs.filter (fun e => !(e.1 = k : Bool))

/-- The paths present in the filesystem. -/
def fsKeys (fs : FS) : List (String × String) := fs.map (·.1)

/-- The `REPOSITORIES` tuple of the script; the first entry is the base. -/
def REPOSITORIES : List String :=
  ["social-core", "social-docs", ".github", "social-app-django",
   "social-app-cherrypy", "social-storage-sqlalchemy", "social-storage-peewee",
   "social-storage-mongoengine", "social-examples",
   "social-app-flask-sqlalchemy", "social-app-pyramid", "social-app-tornado",
   "social-app-webpy", "social-app-django-mongoengine",
   "social-app-flask-peewee", "social-app-flask-mongoengine",
   "social-app-flask"]

/-- `REPOS / REPOSITORIES[0]`, the base repository's directory. -/
def baseRepoName : String := REPOSITORIES.headD ""

/-- The `COPY_FROM_BASE` tuple. -/
def COPY_FROM_BASE : List String :=
  [".pre-commit-config.yaml", ".github/renovate.json"]

/-- The `ADJUST_FROM_BASE` dict as (path, original, replacement) triples in
insertion order. -/
def ADJUST_FROM_BASE : List (String × String × String) :=
  [(".github/workflows/pre-commit.yml",
    "uses: ./.github/workflows/pre-commit-shared.yml",
    "uses: python-social-auth/social-core/.github/workflows/pre-commit-shared.yml@master"),
   (".github/workflows/release.yml",
    "uses: ./.github/workflows/release-shared.yml",
    "uses: python-social-auth/social-core/.github/workflows/release-shared.yml@master")]

/-- The `ADJUST_FROM_BASE_EXCEPTIONS` tuple. -/
def ADJUST_FROM_BASE_EXCEPTIONS : List (String × String) :=
  [(".github", ".github/workflows/release.yml"),
   ("social-docs", ".github/workflows/release.yml"),
   ("social-examples", ".github/workflows/release.yml")]

/-- The `REMOVE_FILES` tuple. -/
def REMOVE_FILES : List String :=
  [".github/dependabot.yml", ".github/workflows/ruff.yml", ".landscape.yaml",
   ".flake8", "Makefile", "Dockerfile", "CONTRIBUTING.md", "renovate.json"]

/-- The `REMOVE_EXCEPTIONS` tuple. -/
def REMOVE_EXCEPTIONS : List (String × String) :=
  [(".github", "CONTRIBUTING.md")]

/-- One `copyfile(self.base / name, output)` step: `copyfile` raises if the
source file is missing from the base checkout. -/
def copyStep (repoName name : String) (fs : FS) : Except Unit FS :=
  match fsLookup fs (baseRepoName, name) with
  | none => .error ()
  | some v => .ok (fsWrite (repoName, name) v fs)

/-- Python `s.replace("", rep)`: the replacement is inserted before every
character and at the end. -/
def pyReplaceEmpty (rep : List Char) : List Char → List Char
  | [] => rep
  | c :: rest => rep ++ c :: pyReplaceEmpty rep rest

/-- Left-to-right non-overlapping replacement of a nonempty pattern.  The
fuel argument (always called with the length of the string, which each step
strictly decreases) only makes the recursion structural. -/
def pyReplaceFuel (pat rep : List Char) : Nat → List Char → List Char
  | 0, s => s
  | _ + 1, [] => []
  | fuel + 1, c :: rest =>
    if pat.isPrefixOf (c :: rest) && !pat.isEmpty then
      rep ++ pyReplaceFuel pat rep fuel ((c :: rest).drop pat.length)
    else c :: pyReplaceFuel pat rep fuel rest

/-- Python `s.replace(pat, rep)`. -/
def pyReplace (s pat rep : String) : String :=
  if pat.toList = [] then String.mk (pyReplaceEmpty rep.toList s.toList)
  else String.mk (pyReplaceFuel pat.toList rep.toList s.toList.length s.toList)

/-- One iteration of the `ADJUST_FROM_BASE` loop: skip exception pairs,
otherwise read the base file (raising if missing) and write the
text-substituted copy into the repository. -/
def adjustStep (repoName : String) (entry : String × String × String)
    (fs : FS) : Except Unit FS :=
  if ADJUST_FROM_BASE_EXCEPTIONS.contains (repoName, entry.1) then .ok fs
  else
    match fsLookup fs (baseRepoName, entry.1) with
    | none => .error ()
    | some v =>
      .ok (fsWrite (repoName, entry.1) (pyReplace v entry.2.1 entry.2.2) fs)

/-- One iteration of the `REMOVE_FILES` loop: skip exception pairs, otherwise
`unlink(missing_ok=True)`. -/
def removeStep (repoName name : String) (fs : FS) : FS :=
  if REMOVE_EXCEPTIONS.contains (repoName, name) then fs
  else fsErase (repoName, name) fs

/-- The whole `REMOVE_FILES` loop. -/
def removeAll (repoName : String) (fs : FS) : FS :=
  REMOVE_FILES.foldl (fun fs name => removeStep repoName name fs) fs

/-- Fold a fallible per-item step over a list, stopping at the first raised
error (Python exception propagation). -/
def foldStepsE {α : Type} (f : α → FS → Except Unit FS) :
    List α → FS → Except Unit FS
  | [], fs => .ok fs
  | a :: rest, fs =>
    match f a fs with
    | .error e => .error e
    | .ok fs1 => foldStepsE f rest fs1

/-- `Repository.update_files`: copy and adjust files from the base repository
(skipped when the repository is the base itself), then remove extra files. -/
def Repository.update_files (repoName : String) (fs : FS) : Except Unit FS :=
  if baseRepoName = repoName then .ok (removeAll repoName fs)
  else
    match foldStepsE (fun n fs => copyStep repoName n fs) COPY_FROM_BASE fs with
    | .error e => .error e
    | .ok fs1 =>
      match foldStepsE (fun p fs => adjustStep repoName p fs) ADJUST_FROM_BASE fs1 with
      | .error e => .error e
      | .ok fs2 => .ok (removeAll repoName fs2)

/-- The update-files phase of `main`: `Repository.update_files` for each
repository in order. -/
def updateFilesPhase (repos : List String) (fs : FS) : Except Unit FS :=
  foldStepsE Repository.update_files repos fs

/-- The relative paths `update_files` reads from the base checkout. -/
def BASE_READ_FILES : List String :=
  COPY_FROM_BASE ++ ADJUST_FROM_BASE.map (·.1)

/-- The git commands `Repository.commit` may issue after staging. -/
inductive GitCmd : Type
  | add : GitCmd
  | commitCmd : String → GitCmd
  | push : GitCmd
deriving DecidableEq

/-- A git working copy: the tree of the last commit and the working tree
(`git add .` stages the whole working tree, so the staged tree after the
`add` is the working tree). -/
structure GitRepo : Type where
  headTree : List (String × String)
  workTree : List (String × String)

/-- Tree lookup. -/
def tLookup : List (String × String) → String → Option String
  | [], _ => none
  | e :: rest, k => if e.1 = k then some e.2 else tLookup rest k

/-- `git diff --cached --exit-code` returns 0 exactly when the staged tree
and the last commit agree as maps. -/
def stagedDiffEmpty (r : GitRepo) : Bool :=
  (r.workTree.map (·.1) ++ r.headTree.map (·.1)).all
    (fun k => tLookup r.workTree k == tLookup r.headTree k)

/-- `Repository.commit`: stage everything, compare, and commit and push only
when the staged diff is nonempty.  Returns the resulting repository state and
the list of git commands issued. -/
def Repository.commit (r : GitRepo) (message : String) : GitRepo × List GitCmd :=
  if stagedDiffEmpty r then (r, [GitCmd.add])
  else ({ headTree := r.workTree, workTree := r.workTree },
        [GitCmd.add, GitCmd.commitCmd message, GitCmd.push])

/-- Accumulate a key as a Python dict build does: an already-present key is
kept in place, a new key goes to the end. -/
def addKey (ks : List PyStr) (k : PyStr) : List PyStr :=
  if k ∈ ks then ks else ks ++ [k]

/-- The headings contributed to the mapping by the state and remaining lines
of the `load_existing` loop. -/
def pendingHeads (sec : Option PyStr) (lines : List PyStr) : List PyStr :=
  (match sec with
   | none => []
   | some s => [s]) ++ lines.filter (fun l => pyStartsWith ['#'] l)

/-- No newline-segment of the string is a heading line. -/
def noHashSegs (x : PyStr) : Prop :=
  ∀ seg ∈ segsNL x, pyStartsWith ['#'] seg = false

/-- No newline-segment after the first is a heading line. -/
def noHashTailSegs (x : PyStr) : Prop :=
  ∀ seg ∈ (segsNL x).tail, pyStartsWith ['#'] seg = false

/-- The shape of every entry produced by `Readme.load_existing`: the key is a
single heading line, the body a newline-join of non-heading lines. -/
def wellFormedEntry (p : PyStr × PyStr) : Prop :=
  breakFree p.1 ∧ pyStartsWith ['#'] p.1 = true ∧ onlyNL p.2 ∧ noHashSegs p.2

/-! ### Basic lemmas about the ordered section mapping -/

theorem keysOD_map_of_fst (s : Sections) (f : PyStr × PyStr → PyStr × PyStr)
    (hf : ∀ p, (f p).1 = p.1) : keysOD (s.map f) = keysOD s := by
  induction s with
  | nil => rfl
  | cons p rest ih =>
    simp only [keysOD, List.map_cons] at *
    exact congrArg₂ _ (hf p) ih

theorem keysOD_insertOD_of_contains (s : Sections) (k v : PyStr)
    (h : containsKey s k = true) : keysOD (insertOD s k v) = keysOD s := by
  unfold insertOD
  rw [if_pos h]
  exact keysOD_map_of_fst s _ (fun p => by split <;> rfl)

theorem keysOD_updateStep (self : Sections) (sec content : PyStr) :
    keysOD (updateStep self sec content) = keysOD self := by
  unfold updateStep
  split
  · exact keysOD_map_of_fst self _ (fun p => by split <;> rfl)
  · split
    · rename_i h
      exact keysOD_insertOD_of_contains self sec content (by
        simpa using (Bool.and_elim_right h))
    · rfl

theorem keysOD_update (self base : Sections) :
    keysOD (Readme.update self base) = keysOD self := by
  induction base generalizing self with
  | nil => rfl
  | cons p rest ih =>
    show keysOD (Readme.update (updateStep self p.1 p.2) rest) = keysOD self
    rw [ih (updateStep self p.1 p.2), keysOD_updateStep]

/-- C2: `Readme.update` never adds a section, never removes one, and never
changes any heading line: the sequence (hence the set and insertion order)
of the target's section keys after `update` equals the one before.  In
particular a target with no top-level heading still has none, a target
lacking an allow-listed section still lacks it, and a target heading whose
text differs from the base's keeps its original heading line. -/
theorem readme_update_preserves_keys (self base : Sections) :
    keysOD (Readme.update self base) = keysOD self :=
  keysOD_update self base

/-! ### C5: commit happens only on a nonempty staged diff -/

/-- C5: after staging all changes, if the staged tree is identical to the
last commit (the staged diff is empty), `Repository.commit` performs no git
commit and no git push (only the `add` runs and the repository state is
unchanged); conversely a commit or a push is issued only when a staged
difference exists. -/
theorem repository_commit_only_when_dirty (r : GitRepo) (msg : String) :
    (stagedDiffEmpty r = true → Repository.commit r msg = (r, [GitCmd.add])) ∧
    ((GitCmd.commitCmd msg ∈ (Repository.commit r msg).2 ∨
        GitCmd.push ∈ (Repository.commit r msg).2) →
      stagedDiffEmpty r = false) := by
  constructor
  · intro h
    unfold Repository.commit
    rw [if_pos h]
  · intro h
    cases hd : stagedDiffEmpty r with
    | false => rfl
    | true =>
      unfold Repository.commit at h
      rw [if_pos hd] at h
      rcases h with h | h <;> simp at h

/-- Witness for C5 at a concrete repository whose staged tree equals its
last commit. -/
theorem repository_commit_only_when_dirty_witness :
    Repository.commit
        { headTree := [("a.txt", "same")], workTree := [("a.txt", "same")] }
        "msg" =
      ({ headTree := [("a.txt", "same")], workTree := [("a.txt", "same")] },
        [GitCmd.add]) :=
  (repository_commit_only_when_dirty _ "msg").1 (by decide)

/-! ### Filesystem lemmas -/

theorem fsLookup_map_write_ne (fs : FS) (k k' : String × String) (v : String)
    (h : k' ≠ k) :
    fsLookup (fs.map (fun e => if e.1 = k then (e.1, v) else e)) k' =
      fsLookup fs k' := by
  induction fs with
  | nil => rfl
  | cons e rest ih =>
    simp only [List.map_cons, fsLookup]
    by_cases he : e.1 = k'
    · rw [if_pos (by split <;> simpa using he), if_pos he]
      split
      · rename_i hek
        exact absurd (hek ▸ he).symm h
      · rfl
    · rw [if_neg (by split <;> simpa using he), if_neg he]
      exact ih

theorem fsLookup_append_one_ne (fs : FS) (k k' : String × String) (v : String)
    (h : k' ≠ k) : fsLookup (fs ++ [(k, v)]) k' = fsLookup fs k' := by
  induction fs with
  | nil =>
    simp only [List.nil_append, fsLookup]
    rw [if_neg (fun hh => h hh.symm)]
  | cons e rest ih =>
    simp only [List.cons_append, fsLookup]
    split
    · rfl
    · exact ih

theorem fsLookup_write_ne (fs : FS) (k k' : String × String) (v : String)
    (h : k' ≠ k) : fsLookup (fsWrite k v fs) k' = fsLookup fs k' := by
  unfold fsWrite
  split
  · exact fsLookup_map_write_ne fs k k' v h
  · exact fsLookup_append_one_ne fs k k' v h

theorem fsErase_of_absent (fs : FS) (k : String × String)
    (h : fsLookup fs k = none) : fsErase k fs = fs := by
  induction fs with
  | nil => rfl
  | cons e rest ih =>
    unfold fsLookup at h
    by_cases he : e.1 = k
    · rw [if_pos he] at h
      exact absurd h (by simp)
    · rw [if_neg he] at h
      unfold fsErase
      simp only [List.filter_cons]
      rw [if_pos (by simpa using he)]
      exact congrArg (e :: ·) (ih h)

theorem fsLookup_erase_none (fs : FS) (k k' : String × String)
    (h : fsLookup fs k' = none) : fsLookup (fsErase k fs) k' = none := by
  induction fs with
  | nil => rfl
  | cons e rest ih =>
    unfold fsLookup at h
    by_cases he : e.1 = k'
    · rw [if_pos he] at h
      exact absurd h (by simp)
    · rw [if_neg he] at h
      unfold fsErase
      simp only [List.filter_cons]
      split
      · simp only [fsLookup, if_neg he]
        exact ih h
      · exact ih h

theorem fsLookup_removeStep_none (repoName n : String) (fs : FS)
    (k : String × String) (h : fsLookup fs k = none) :
    fsLookup (removeStep repoName n fs) k = none := by
  unfold removeStep
  split
  · exact h
  · exact fsLookup_erase_none fs _ k h

theorem fsLookup_removeAll_none (repoName : String) (fs : FS)
    (k : String × String) (h : fsLookup fs k = none) :
    fsLookup (removeAll repoName fs) k = none := by
  unfold removeAll
  have main : ∀ (ns : List String) (g : FS), fsLookup g k = none →
      fsLookup (ns.foldl (fun fs name => removeStep repoName name fs) g) k = none := by
    intro ns
    induction ns with
    | nil => intro g hg; exact hg
    | cons m rest ih =>
      intro g hg
      exact ih _ (fsLookup_removeStep_none repoName m g k hg)
  exact main REMOVE_FILES fs h

theorem copyFold_error (tgt : String) (hne : baseRepoName ≠ tgt)
    (ns : List String) (fs : FS) (n : String) (hn : n ∈ ns)
    (hmiss : fsLookup fs (baseRepoName, n) = none) :
    foldStepsE (fun m fs => copyStep tgt m fs) ns fs = .error () := by
  induction ns generalizing fs with
  | nil => cases hn
  | cons m rest ih =>
    unfold foldStepsE copyStep
    cases hm : fsLookup fs (baseRepoName, m) with
    | none => rfl
    | some v =>
      have hmn : m ≠ n := by
        intro he
        rw [he, hmiss] at hm
        cases hm
      have hn' : n ∈ rest := by
        cases hn with
        | head => exact absurd rfl hmn
        | tail _ h => exact h
      dsimp only
      exact ih (fsWrite (tgt, m) v fs) hn'
        (by
          rw [fsLookup_write_ne fs (tgt, m) (baseRepoName, n) v
            (fun he => hne (congrArg Prod.fst he))]
          exact hmiss)

/-- C4: a verbatim-copy source file missing from the base checkout makes the
run fail (the copy raises, aborting the update-files phase), while a removal
target absent from the repository checkout is a silent no-op: the deletion
step raises nothing and leaves the filesystem unchanged. -/
theorem update_files_missing_copy_fatal_missing_delete_silent :
    (∀ (fs : FS) (n : String), n ∈ COPY_FROM_BASE →
        fsLookup fs (baseRepoName, n) = none →
        updateFilesPhase REPOSITORIES fs = .error ()) ∧
    (∀ (repoName n : String) (fs : FS), n ∈ REMOVE_FILES →
        fsLookup fs (repoName, n) = none → removeStep repoName n fs = fs) := by
  constructor
  · intro fs n hn hmiss
    have h1 : Repository.update_files "social-core" fs =
        .ok (removeAll "social-core" fs) := by
      unfold Repository.update_files
      rw [if_pos (by decide)]
    have hmiss1 : fsLookup (removeAll "social-core" fs) (baseRepoName, n) =
        none := fsLookup_removeAll_none _ fs _ hmiss
    have h2 : Repository.update_files "social-docs"
        (removeAll "social-core" fs) = .error () := by
      unfold Repository.update_files
      rw [if_neg (by decide)]
      rw [copyFold_error "social-docs" (by decide) COPY_FROM_BASE _ n hn hmiss1]
    simp only [updateFilesPhase, REPOSITORIES, foldStepsE, h1, h2]
  · intro repoName n fs _ hmiss
    unfold removeStep
    split
    · rfl
    · exact fsErase_of_absent fs _ hmiss

/-- Witness for C4: the empty filesystem misses every base file, so the run
fails; deleting a file absent from an empty checkout changes nothing. -/
theorem update_files_missing_copy_fatal_missing_delete_silent_witness :
    updateFilesPhase REPOSITORIES [] = .error () ∧
    removeStep "social-docs" "Makefile" [] = [] :=
  ⟨update_files_missing_copy_fatal_missing_delete_silent.1 []
      ".pre-commit-config.yaml" (by decide) rfl,
   update_files_missing_copy_fatal_missing_delete_silent.2 "social-docs"
      "Makefile" [] (by decide) rfl⟩

theorem fsLookup_erase_ne (fs : FS) (k k' : String × String) (h : k' ≠ k) :
    fsLookup (fsErase k fs) k' = fsLookup fs k' := by
  induction fs with
  | nil => rfl
  | cons e rest ih =>
    by_cases he : e.1 = k
    · have h1 : fsErase k (e :: rest) = fsErase k rest := by
        unfold fsErase
        simp only [List.filter_cons]
        rw [if_neg (by simpa using he)]
      have h2 : fsLookup (e :: rest) k' = fsLookup rest k' := by
        show (if e.1 = k' then some e.2 else fsLookup rest k') = fsLookup rest k'
        rw [if_neg (fun hh : e.1 = k' => h (hh ▸ he))]
      rw [h1, h2]
      exact ih
    · have h1 : fsErase k (e :: rest) = e :: fsErase k rest := by
        unfold fsErase
        simp only [List.filter_cons]
        rw [if_pos (by simpa using he)]
      rw [h1]
      show (if e.1 = k' then some e.2 else fsLookup (fsErase k rest) k') =
        (if e.1 = k' then some e.2 else fsLookup rest k')
      split
      · rfl
      · exact ih

theorem fsLookup_erase_self (fs : FS) (k : String × String) :
    fsLookup (fsErase k fs) k = none := by
  induction fs with
  | nil => rfl
  | cons e rest ih =>
    by_cases he : e.1 = k
    · have h1 : fsErase k (e :: rest) = fsErase k rest := by
        unfold fsErase
        simp only [List.filter_cons]
        rw [if_neg (by simpa using he)]
      rw [h1]
      exact ih
    · have h1 : fsErase k (e :: rest) = e :: fsErase k rest := by
        unfold fsErase
        simp only [List.filter_cons]
        rw [if_pos (by simpa using he)]
      rw [h1]
      show (if e.1 = k then some e.2 else fsLookup (fsErase k rest) k) = none
      rw [if_neg he]
      exact ih

theorem fsLookup_write_self (fs : FS) (k : String × String) (v : String) :
    fsLookup (fsWrite k v fs) k = some v := by
  unfold fsWrite
  by_cases hc : (fs.any (fun e => e.1 = k)) = true
  · rw [if_pos hc]
    induction fs with
    | nil => simp at hc
    | cons e rest ih =>
      simp only [List.map_cons]
      by_cases he : e.1 = k
      · rw [if_pos he]
        show (if e.1 = k then some v else _) = some v
        rw [if_pos he]
      · rw [if_neg he]
        show (if e.1 = k then some e.2 else
          fsLookup (rest.map (fun e => if e.1 = k then (e.1, v) else e)) k) = some v
        rw [if_neg he]
        apply ih
        simp only [List.any_cons, Bool.or_eq_true, decide_eq_true_eq] at hc
        rcases hc with hc | hc
        · exact absurd hc he
        · simpa using hc
  · rw [if_neg hc]
    induction fs with
    | nil =>
      show (if k = k then some v else none) = some v
      rw [if_pos rfl]
    | cons e rest ih =>
      simp only [List.any_cons, Bool.or_eq_true, decide_eq_true_eq] at hc
      push_neg at hc
      show (if e.1 = k then some e.2 else fsLookup (rest ++ [(k, v)]) k) = some v
      rw [if_neg hc.1]
      apply ih
      simpa using hc.2

theorem copyFold_frame (tgt : String) (ns : List String) (fs fs1 : FS)
    (k : String × String)
    (hok : foldStepsE (fun m fs => copyStep tgt m fs) ns fs = .ok fs1)
    (hk : k.1 ≠ tgt ∨ k.2 ∉ ns) : fsLookup fs1 k = fsLookup fs k := by
  induction ns generalizing fs with
  | nil =>
    unfold foldStepsE at hok
    cases hok
    rfl
  | cons m rest ih =>
    unfold foldStepsE copyStep at hok
    cases hm : fsLookup fs (baseRepoName, m) with
    | none => rw [hm] at hok; cases hok
    | some v =>
      rw [hm] at hok
      dsimp only at hok
      have hkm : k ≠ (tgt, m) := by
        rcases hk with h | h
        · exact fun he => h (congrArg Prod.fst he)
        · exact fun he => h (by rw [congrArg Prod.snd he]; exact List.mem_cons_self m rest)
      have hk' : k.1 ≠ tgt ∨ k.2 ∉ rest := by
        rcases hk with h | h
        · exact Or.inl h
        · exact Or.inr (fun hh => h (List.mem_cons_of_mem m hh))
      rw [ih (fsWrite (tgt, m) v fs) hok hk']
      exact fsLookup_write_ne fs (tgt, m) k v hkm

theorem adjustFold_frame (tgt : String) (entries : List (String × String × String))
    (fs fs1 : FS) (k : String × String)
    (hok : foldStepsE (fun p fs => adjustStep tgt p fs) entries fs = .ok fs1)
    (hk : k.1 ≠ tgt ∨ k.2 ∉ entries.map (·.1) ∨
      ADJUST_FROM_BASE_EXCEPTIONS.contains (tgt, k.2) = true) :
    fsLookup fs1 k = fsLookup fs k := by
  induction entries generalizing fs with
  | nil =>
    unfold foldStepsE at hok
    cases hok
    rfl
  | cons e rest ih =>
    have hk' : k.1 ≠ tgt ∨ k.2 ∉ rest.map (·.1) ∨
        ADJUST_FROM_BASE_EXCEPTIONS.contains (tgt, k.2) = true := by
      rcases hk with h | h | h
      · exact Or.inl h
      · exact Or.inr (Or.inl (fun hh => h (by
          simp only [List.map_cons]
          exact List.mem_cons_of_mem _ hh)))
      · exact Or.inr (Or.inr h)
    unfold foldStepsE adjustStep at hok
    by_cases hexc : ADJUST_FROM_BASE_EXCEPTIONS.contains (tgt, e.1) = true
    · rw [if_pos hexc] at hok
      dsimp only at hok
      exact ih fs hok hk'
    · rw [if_neg hexc] at hok
      cases hm : fsLookup fs (baseRepoName, e.1) with
      | none => rw [hm] at hok; cases hok
      | some v =>
        rw [hm] at hok
        dsimp only at hok
        have hke : k ≠ (tgt, e.1) := by
          rcases hk with h | h | h
          · exact fun he => h (congrArg Prod.fst he)
          · exact fun he => h (by
              rw [congrArg Prod.snd he]
              simp only [List.map_cons]
              exact List.mem_cons_self _ _)
          · intro he
            rw [congrArg Prod.snd he] at h
            exact hexc h
        rw [ih _ hok hk']
        exact fsLookup_write_ne fs (tgt, e.1) k _ hke

theorem foldRemove_frame (repo : String) (ns : List String) (fs : FS)
    (k : String × String)
    (hk : k.1 ≠ repo ∨ k.2 ∉ ns ∨ REMOVE_EXCEPTIONS.contains (repo, k.2) = true) :
    fsLookup (ns.foldl (fun fs name => removeStep repo name fs) fs) k =
      fsLookup fs k := by
  induction ns generalizing fs with
  | nil => rfl
  | cons m rest ih =>
    have hk' : k.1 ≠ repo ∨ k.2 ∉ rest ∨
        REMOVE_EXCEPTIONS.contains (repo, k.2) = true := by
      rcases hk with h | h | h
      · exact Or.inl h
      · exact Or.inr (Or.inl (fun hh => h (List.mem_cons_of_mem m hh)))
      · exact Or.inr (Or.inr h)
    simp only [List.foldl_cons]
    rw [ih (removeStep repo m fs) hk']
    unfold removeStep
    by_cases hexc : REMOVE_EXCEPTIONS.contains (repo, m) = true
    · rw [if_pos hexc]
    · rw [if_neg hexc]
      apply fsLookup_erase_ne
      rcases hk with h | h | h
      · exact fun he => h (congrArg Prod.fst he)
      · exact fun he => h (by rw [congrArg Prod.snd he]; exact List.mem_cons_self m rest)
      · intro he
        rw [congrArg Prod.snd he] at h
        exact hexc h

theorem removeAll_frame (repo : String) (fs : FS) (k : String × String)
    (hk : k.1 ≠ repo ∨ k.2 ∉ REMOVE_FILES ∨
      REMOVE_EXCEPTIONS.contains (repo, k.2) = true) :
    fsLookup (removeAll repo fs) k = fsLookup fs k :=
  foldRemove_frame repo REMOVE_FILES fs k hk

theorem base_read_not_removed (n : String) (hn : n ∈ BASE_READ_FILES) :
    n ∉ REMOVE_FILES := by
  have h4 : n = ".pre-commit-config.yaml" ∨ n = ".github/renovate.json" ∨
      n = ".github/workflows/pre-commit.yml" ∨
      n = ".github/workflows/release.yml" := by
    simpa [BASE_READ_FILES, COPY_FROM_BASE, ADJUST_FROM_BASE] using hn
  rcases h4 with h | h | h | h <;> (subst h; decide)

theorem update_files_preserves_base_reads (r : String) (fs fs' : FS)
    (hok : Repository.update_files r fs = .ok fs') (n : String)
    (hn : n ∈ BASE_READ_FILES) :
    fsLookup fs' (baseRepoName, n) = fsLookup fs (baseRepoName, n) := by
  unfold Repository.update_files at hok
  by_cases hb : baseRepoName = r
  · rw [if_pos hb] at hok
    cases hok
    exact removeAll_frame r fs _ (Or.inr (Or.inl (base_read_not_removed n hn)))
  · rw [if_neg hb] at hok
    cases h1 : foldStepsE (fun n fs => copyStep r n fs) COPY_FROM_BASE fs with
    | error e => rw [h1] at hok; cases hok
    | ok fs1 =>
      rw [h1] at hok
      dsimp only at hok
      cases h2 : foldStepsE (fun p fs => adjustStep r p fs) ADJUST_FROM_BASE fs1 with
      | error e => rw [h2] at hok; cases hok
      | ok fs2 =>
        rw [h2] at hok
        dsimp only at hok
        cases hok
        rw [removeAll_frame r fs2 _ (Or.inl hb),
          adjustFold_frame r ADJUST_FROM_BASE fs1 fs2 _ h2 (Or.inl hb),
          copyFold_frame r COPY_FROM_BASE fs fs1 _ h1 (Or.inl hb)]

/-- C8: during the update-files phase, the base repository checkout is
read-only shared state: no repository's file processing (the base's own
included) changes any base file that the copy or adjust rules read, so every
repository reads the base content established by the checkout phase. -/
theorem base_checkout_read_only (repos : List String) (fs fs' : FS)
    (hok : updateFilesPhase repos fs = .ok fs') (n : String)
    (hn : n ∈ BASE_READ_FILES) :
    fsLookup fs' (baseRepoName, n) = fsLookup fs (baseRepoName, n) := by
  induction repos generalizing fs with
  | nil =>
    unfold updateFilesPhase foldStepsE at hok
    cases hok
    rfl
  | cons r rest ih =>
    unfold updateFilesPhase foldStepsE at hok
    cases h1 : Repository.update_files r fs with
    | error e => rw [h1] at hok; cases hok
    | ok fs1 =>
      rw [h1] at hok
      dsimp only at hok
      rw [ih fs1 hok]
      exact update_files_preserves_base_reads r fs fs1 h1 n hn

/-- Witness for C8 on a filesystem holding all four files the rules read
from the base checkout, updating the base and one downstream repository. -/
theorem base_checkout_read_only_witness :
    updateFilesPhase ["social-core", "social-docs"]
        [(("social-core", ".pre-commit-config.yaml"), "A"),
         (("social-core", ".github/renovate.json"), "B"),
         (("social-core", ".github/workflows/pre-commit.yml"), "C"),
         (("social-core", ".github/workflows/release.yml"), "D")] =
      .ok
        [(("social-core", ".pre-commit-config.yaml"), "A"),
         (("social-core", ".github/renovate.json"), "B"),
         (("social-core", ".github/workflows/pre-commit.yml"), "C"),
         (("social-core", ".github/workflows/release.yml"), "D"),
         (("social-docs", ".pre-commit-config.yaml"), "A"),
         (("social-docs", ".github/renovate.json"), "B"),
         (("social-docs", ".github/workflows/pre-commit.yml"), "C")] ∧
    fsLookup
        [(("social-core", ".pre-commit-config.yaml"), "A"),
         (("social-core", ".github/renovate.json"), "B"),
         (("social-core", ".github/workflows/pre-commit.yml"), "C"),
         (("social-core", ".github/workflows/release.yml"), "D"),
         (("social-docs", ".pre-commit-config.yaml"), "A"),
         (("social-docs", ".github/renovate.json"), "B"),
         (("social-docs", ".github/workflows/pre-commit.yml"), "C")]
        ("social-core", ".pre-commit-config.yaml") =
      fsLookup
        [(("social-core", ".pre-commit-config.yaml"), "A"),
         (("social-core", ".github/renovate.json"), "B"),
         (("social-core", ".github/workflows/pre-commit.yml"), "C"),
         (("social-core", ".github/workflows/release.yml"), "D")]
        ("social-core", ".pre-commit-config.yaml") :=
 by
  refine ⟨rfl, ?_⟩
  exact base_checkout_read_only ["social-core", "social-docs"] _ _ (by rfl)
    ".pre-commit-config.yaml" (by decide)

/-- C10: for every (repository, path) pair in `ADJUST_FROM_BASE_EXCEPTIONS`,
`Repository.update_files` leaves that file in the repository checkout
entirely unchanged — it is not copied from the base at all. -/
theorem adjust_exception_file_untouched (repoName n : String) (fs fs' : FS)
    (hmem : (repoName, n) ∈ ADJUST_FROM_BASE_EXCEPTIONS)
    (hok : Repository.update_files repoName fs = .ok fs') :
    fsLookup fs' (repoName, n) = fsLookup fs (repoName, n) := by
  have hcases : (repoName = ".github" ∨ repoName = "social-docs" ∨
      repoName = "social-examples") ∧ n = ".github/workflows/release.yml" := by
    simp only [ADJUST_FROM_BASE_EXCEPTIONS, List.mem_cons, List.mem_singleton,
      Prod.mk.injEq, List.not_mem_nil, or_false] at hmem
    rcases hmem with ⟨h1, h2⟩ | ⟨h1, h2⟩ | ⟨h1, h2⟩
    · exact ⟨Or.inl h1, h2⟩
    · exact ⟨Or.inr (Or.inl h1), h2⟩
    · exact ⟨Or.inr (Or.inr h1), h2⟩
  have hnc : n ∉ COPY_FROM_BASE := by rw [hcases.2]; decide
  have hnr : n ∉ REMOVE_FILES := by rw [hcases.2]; decide
  have hexc : ADJUST_FROM_BASE_EXCEPTIONS.contains (repoName, n) = true := by
    rcases hcases.1 with h | h | h <;> (rw [h, hcases.2]; decide)
  unfold Repository.update_files at hok
  by_cases hb : baseRepoName = repoName
  · rw [if_pos hb] at hok
    cases hok
    exact removeAll_frame repoName fs _ (Or.inr (Or.inl hnr))
  · rw [if_neg hb] at hok
    cases h1 : foldStepsE (fun n fs => copyStep repoName n fs) COPY_FROM_BASE fs with
    | error e => rw [h1] at hok; cases hok
    | ok fs1 =>
      rw [h1] at hok
      dsimp only at hok
      cases h2 : foldStepsE (fun p fs => adjustStep repoName p fs) ADJUST_FROM_BASE fs1 with
      | error e => rw [h2] at hok; cases hok
      | ok fs2 =>
        rw [h2] at hok
        dsimp only at hok
        cases hok
        rw [removeAll_frame repoName fs2 _ (Or.inr (Or.inl hnr)),
          adjustFold_frame repoName ADJUST_FROM_BASE fs1 fs2 _ h2
            (Or.inr (Or.inr hexc)),
          copyFold_frame repoName COPY_FROM_BASE fs fs1 _ h1 (Or.inr hnc)]

/-- Witness for C10: `.github`'s `release.yml` keeps its pre-run content. -/
theorem adjust_exception_file_untouched_witness :
    fsLookup
        [(("social-core", ".pre-commit-config.yaml"), "A"),
         (("social-core", ".github/renovate.json"), "B"),
         (("social-core", ".github/workflows/pre-commit.yml"), "C"),
         (("social-core", ".github/workflows/release.yml"), "D"),
         ((".github", ".github/workflows/release.yml"), "local"),
         ((".github", ".pre-commit-config.yaml"), "A"),
         ((".github", ".github/renovate.json"), "B"),
         ((".github", ".github/workflows/pre-commit.yml"), "C")]
        (".github", ".github/workflows/release.yml") =
      fsLookup
        [(("social-core", ".pre-commit-config.yaml"), "A"),
         (("social-core", ".github/renovate.json"), "B"),
         (("social-core", ".github/workflows/pre-commit.yml"), "C"),
         (("social-core", ".github/workflows/release.yml"), "D"),
         ((".github", ".github/workflows/release.yml"), "local")]
        (".github", ".github/workflows/release.yml") :=
  adjust_exception_file_untouched ".github" ".github/workflows/release.yml"
    _ _ (by decide) (by rfl)

theorem fsKeys_map_of_fst (fs : FS)
    (f : (String × String) × String → (String × String) × String)
    (hf : ∀ e, (f e).1 = e.1) : fsKeys (fs.map f) = fsKeys fs := by
  induction fs with
  | nil => rfl
  | cons e rest ih =>
    simp only [fsKeys, List.map_cons] at *
    exact congrArg₂ _ (hf e) ih

theorem fsLookup_some_any (fs : FS) (k : String × String) (v : String)
    (h : fsLookup fs k = some v) : (fs.any (fun e => e.1 = k)) = true := by
  induction fs with
  | nil => cases h
  | cons e rest ih =>
    unfold fsLookup at h
    simp only [List.any_cons, Bool.or_eq_true, decide_eq_true_eq]
    by_cases he : e.1 = k
    · exact Or.inl he
    · rw [if_neg he] at h
      exact Or.inr (by simpa using ih h)

theorem fsLookup_none_not_any (fs : FS) (k : String × String)
    (h : fsLookup fs k = none) : (fs.any (fun e => e.1 = k)) = false := by
  induction fs with
  | nil => rfl
  | cons e rest ih =>
    unfold fsLookup at h
    by_cases he : e.1 = k
    · rw [if_pos he] at h
      cases h
    · rw [if_neg he] at h
      simp only [List.any_cons, Bool.or_eq_false_iff]
      exact ⟨by simp [he], ih h⟩

theorem map_write_id_of_not_mem (fs : FS) (k : String × String) (v : String)
    (h : k ∉ fsKeys fs) :
    fs.map (fun e => if e.1 = k then (e.1, v) else e) = fs := by
  induction fs with
  | nil => rfl
  | cons e rest ih =>
    simp only [fsKeys, List.map_cons, List.mem_cons, not_or] at h
    simp only [List.map_cons]
    rw [if_neg (fun hh => h.1 hh.symm)]
    exact congrArg _ (ih (by simpa [fsKeys] using h.2))

theorem fsWrite_self_id (fs : FS) (k : String × String) (v : String)
    (hnd : (fsKeys fs).Nodup) (h : fsLookup fs k = some v) :
    fsWrite k v fs = fs := by
  unfold fsWrite
  rw [if_pos (fsLookup_some_any fs k v h)]
  induction fs with
  | nil => cases h
  | cons e rest ih =>
    simp only [fsKeys, List.map_cons, List.nodup_cons] at hnd
    unfold fsLookup at h
    by_cases he : e.1 = k
    · rw [if_pos he] at h
      simp only [List.map_cons]
      rw [if_pos he]
      have hv : e.2 = v := Option.some.inj h
      have hrest : rest.map (fun e => if e.1 = k then (e.1, v) else e) = rest :=
        map_write_id_of_not_mem rest k v (he ▸ hnd.1)
      rw [hrest, ← hv]
    · rw [if_neg he] at h
      simp only [List.map_cons]
      rw [if_neg he]
      exact congrArg _ (ih hnd.2 h)

theorem fsKeys_write_nodup (fs : FS) (k : String × String) (v : String)
    (hnd : (fsKeys fs).Nodup) : (fsKeys (fsWrite k v fs)).Nodup := by
  unfold fsWrite
  split
  · rw [fsKeys_map_of_fst fs _ (fun e => by split <;> rfl)]
    exact hnd
  · rename_i hany
    have hk : k ∉ fsKeys fs := by
      intro hmem
      apply hany
      rcases List.mem_map.mp hmem with ⟨e, he, hek⟩
      exact List.any_eq_true.mpr ⟨e, he, by simp [hek]⟩
    have : fsKeys (fs ++ [(k, v)]) = fsKeys fs ++ [k] := by
      simp [fsKeys]
    rw [this]
    simp only [List.nodup_append, List.nodup_cons, List.not_mem_nil,
      not_false_iff, List.nodup_nil, and_true, true_and]
    exact ⟨hnd, fun a ha hb => hk (by rwa [List.mem_singleton.mp hb] at ha)⟩

theorem fsKeys_erase_nodup (fs : FS) (k : String × String)
    (hnd : (fsKeys fs).Nodup) : (fsKeys (fsErase k fs)).Nodup := by
  have hsub : List.Sublist (fsKeys (fsErase k fs)) (fsKeys fs) :=
    List.Sublist.map _ (List.filter_sublist fs)
  exact hnd.sublist hsub

theorem copyFold_nodup (tgt : String) (ns : List String) (fs fs1 : FS)
    (hok : foldStepsE (fun m fs => copyStep tgt m fs) ns fs = .ok fs1)
    (hnd : (fsKeys fs).Nodup) : (fsKeys fs1).Nodup := by
  induction ns generalizing fs with
  | nil =>
    unfold foldStepsE at hok
    cases hok
    exact hnd
  | cons m rest ih =>
    unfold foldStepsE copyStep at hok
    cases hm : fsLookup fs (baseRepoName, m) with
    | none => rw [hm] at hok; cases hok
    | some v =>
      rw [hm] at hok
      dsimp only at hok
      exact ih _ hok (fsKeys_write_nodup fs _ v hnd)

theorem adjustFold_nodup (tgt : String) (entries : List (String × String × String))
    (fs fs1 : FS)
    (hok : foldStepsE (fun p fs => adjustStep tgt p fs) entries fs = .ok fs1)
    (hnd : (fsKeys fs).Nodup) : (fsKeys fs1).Nodup := by
  induction entries generalizing fs with
  | nil =>
    unfold foldStepsE at hok
    cases hok
    exact hnd
  | cons e rest ih =>
    unfold foldStepsE adjustStep at hok
    by_cases hexc : ADJUST_FROM_BASE_EXCEPTIONS.contains (tgt, e.1) = true
    · rw [if_pos hexc] at hok
      dsimp only at hok
      exact ih fs hok hnd
    · rw [if_neg hexc] at hok
      cases hm : fsLookup fs (baseRepoName, e.1) with
      | none => rw [hm] at hok; cases hok
      | some v =>
        rw [hm] at hok
        dsimp only at hok
        exact ih _ hok (fsKeys_write_nodup fs _ _ hnd)

theorem removeAll_nodup (repo : String) (fs : FS)
    (hnd : (fsKeys fs).Nodup) : (fsKeys (removeAll repo fs)).Nodup := by
  unfold removeAll
  have main : ∀ (ns : List String) (g : FS), (fsKeys g).Nodup →
      (fsKeys (ns.foldl (fun fs name => removeStep repo name fs) g)).Nodup := by
    intro ns
    induction ns with
    | nil => intro g hg; exact hg
    | cons m rest ih =>
      intro g hg
      simp only [List.foldl_cons]
      apply ih
      show (fsKeys (removeStep repo m g)).Nodup
      unfold removeStep
      split
      · exact hg
      · exact fsKeys_erase_nodup g _ hg
  exact main REMOVE_FILES fs hnd

theorem copyFold_ok_lookup (tgt : String) (hne : baseRepoName ≠ tgt)
    (ns : List String) (fs fs1 : FS)
    (hok : foldStepsE (fun m fs => copyStep tgt m fs) ns fs = .ok fs1)
    (n : String) (hn : n ∈ ns) :
    ∃ v, fsLookup fs (baseRepoName, n) = some v ∧
      fsLookup fs1 (tgt, n) = some v := by
  induction ns generalizing fs with
  | nil => cases hn
  | cons m rest ih =>
    unfold foldStepsE copyStep at hok
    cases hm : fsLookup fs (baseRepoName, m) with
    | none => rw [hm] at hok; cases hok
    | some v =>
      rw [hm] at hok
      dsimp only at hok
      by_cases hr : n ∈ rest
      · obtain ⟨v', hbase, htgt⟩ := ih _ hok hr
        rw [fsLookup_write_ne fs (tgt, m) (baseRepoName, n) v
          (fun he => hne (congrArg Prod.fst he))] at hbase
        exact ⟨v', hbase, htgt⟩
      · have hnm : n = m := by
          cases hn with
          | head => rfl
          | tail _ h => exact absurd h hr
        subst hnm
        refine ⟨v, hm, ?_⟩
        rw [copyFold_frame tgt rest _ fs1 (tgt, n) hok (Or.inr hr)]
        exact fsLookup_write_self fs (tgt, n) v

theorem adjustFold_ok_lookup (tgt : String) (hne : baseRepoName ≠ tgt)
    (entries : List (String × String × String))
    (hnd : (entries.map (·.1)).Nodup) (fs fs1 : FS)
    (hok : foldStepsE (fun p fs => adjustStep tgt p fs) entries fs = .ok fs1)
    (e : String × String × String) (he : e ∈ entries)
    (hexc : ADJUST_FROM_BASE_EXCEPTIONS.contains (tgt, e.1) = false) :
    ∃ v, fsLookup fs (baseRepoName, e.1) = some v ∧
      fsLookup fs1 (tgt, e.1) = some (pyReplace v e.2.1 e.2.2) := by
  induction entries generalizing fs with
  | nil => cases he
  | cons e0 rest ih =>
    simp only [List.map_cons, List.nodup_cons] at hnd
    unfold foldStepsE adjustStep at hok
    by_cases hexc0 : ADJUST_FROM_BASE_EXCEPTIONS.contains (tgt, e0.1) = true
    · rw [if_pos hexc0] at hok
      dsimp only at hok
      have hr : e ∈ rest := by
        cases he with
        | head => rw [hexc0] at hexc; cases hexc
        | tail _ h => exact h
      exact ih hnd.2 fs hok hr
    · rw [if_neg hexc0] at hok
      cases hm : fsLookup fs (baseRepoName, e0.1) with
      | none => rw [hm] at hok; cases hok
      | some v =>
        rw [hm] at hok
        dsimp only at hok
        cases he with
        | head =>
          refine ⟨v, hm, ?_⟩
          rw [adjustFold_frame tgt rest _ fs1 (tgt, e.1) hok
            (Or.inr (Or.inl hnd.1))]
          exact fsLookup_write_self fs (tgt, e.1) _
        | tail _ hr =>
          obtain ⟨v', hbase, htgt⟩ := ih hnd.2 _ hok hr
          rw [fsLookup_write_ne fs (tgt, e0.1) (baseRepoName, e.1) _
            (fun hh => hne (congrArg Prod.fst hh))] at hbase
          exact ⟨v', hbase, htgt⟩

theorem foldRemove_preserves_none (repo : String) (ns : List String) (g : FS)
    (k : String × String) (h : fsLookup g k = none) :
    fsLookup (ns.foldl (fun fs name => removeStep repo name fs) g) k = none := by
  induction ns generalizing g with
  | nil => exact h
  | cons m rest ih =>
    simp only [List.foldl_cons]
    exact ih _ (fsLookup_removeStep_none repo m g k h)

theorem removeAll_clears (repo : String) (fs : FS) (n : String)
    (hn : n ∈ REMOVE_FILES)
    (hexc : REMOVE_EXCEPTIONS.contains (repo, n) = false) :
    fsLookup (removeAll repo fs) (repo, n) = none := by
  unfold removeAll
  have main : ∀ (ns : List String) (g : FS), n ∈ ns →
      fsLookup (ns.foldl (fun fs name => removeStep repo name fs) g)
        (repo, n) = none := by
    intro ns
    induction ns with
    | nil => intro g hg; cases hg
    | cons m rest ih =>
      intro g hg
      by_cases hr : n ∈ rest
      · exact ih _ hr
      · have hnm : n = m := by
          cases hg with
          | head => rfl
          | tail _ h => exact absurd h hr
        subst hnm
        simp only [List.foldl_cons]
        apply foldRemove_preserves_none
        unfold removeStep
        rw [if_neg (by rw [hexc]; exact fun h => Bool.false_ne_true h)]
        exact fsLookup_erase_self g (repo, n)
  exact main REMOVE_FILES fs hn

theorem copyFold_id (tgt : String) (ns : List String) (g : FS)
    (hnd : (fsKeys g).Nodup)
    (hcond : ∀ n ∈ ns, ∃ v, fsLookup g (baseRepoName, n) = some v ∧
      fsLookup g (tgt, n) = some v) :
    foldStepsE (fun m fs => copyStep tgt m fs) ns g = .ok g := by
  induction ns with
  | nil => rfl
  | cons m rest ih =>
    obtain ⟨v, hbase, htgt⟩ := hcond m (List.mem_cons_self m rest)
    unfold foldStepsE copyStep
    rw [hbase]
    dsimp only
    rw [fsWrite_self_id g (tgt, m) v hnd htgt]
    exact ih (fun n hn => hcond n (List.mem_cons_of_mem m hn))

theorem adjustFold_id (tgt : String) (entries : List (String × String × String))
    (g : FS) (hnd : (fsKeys g).Nodup)
    (hcond : ∀ e ∈ entries,
      ADJUST_FROM_BASE_EXCEPTIONS.contains (tgt, e.1) = false →
      ∃ v, fsLookup g (baseRepoName, e.1) = some v ∧
        fsLookup g (tgt, e.1) = some (pyReplace v e.2.1 e.2.2)) :
    foldStepsE (fun p fs => adjustStep tgt p fs) entries g = .ok g := by
  induction entries with
  | nil => rfl
  | cons e rest ih =>
    unfold foldStepsE adjustStep
    by_cases hexc : ADJUST_FROM_BASE_EXCEPTIONS.contains (tgt, e.1) = true
    · rw [if_pos hexc]
      dsimp only
      exact ih (fun e' he' => hcond e' (List.mem_cons_of_mem e he'))
    · rw [if_neg hexc]
      obtain ⟨v, hbase, htgt⟩ :=
        hcond e (List.mem_cons_self e rest) (Bool.not_eq_true _ ▸ hexc)
      rw [hbase]
      dsimp only
      rw [fsWrite_self_id g (tgt, e.1) _ hnd htgt]
      exact ih (fun e' he' => hcond e' (List.mem_cons_of_mem e he'))

theorem removeAll_id (repo : String) (g : FS)
    (hcond : ∀ n ∈ REMOVE_FILES,
      REMOVE_EXCEPTIONS.contains (repo, n) = false →
      fsLookup g (repo, n) = none) :
    removeAll repo g = g := by
  unfold removeAll
  have main : ∀ (ns : List String), (∀ n ∈ ns,
      REMOVE_EXCEPTIONS.contains (repo, n) = false →
      fsLookup g (repo, n) = none) →
      ns.foldl (fun fs name => removeStep repo name fs) g = g := by
    intro ns hns
    induction ns with
    | nil => rfl
    | cons m rest ih =>
      simp only [List.foldl_cons]
      have hstep : removeStep repo m g = g := by
        unfold removeStep
        by_cases hexc : REMOVE_EXCEPTIONS.contains (repo, m) = true
        · rw [if_pos hexc]
        · rw [if_neg hexc]
          exact fsErase_of_absent g (repo, m)
            (hns m (List.mem_cons_self m rest) (Bool.not_eq_true _ ▸ hexc))
      rw [hstep]
      exact ih (fun n hn => hns n (List.mem_cons_of_mem m hn))
  exact main REMOVE_FILES hcond

theorem copy_not_removed : ∀ n ∈ COPY_FROM_BASE, n ∉ REMOVE_FILES := by decide

theorem copy_not_adjusted :
    ∀ n ∈ COPY_FROM_BASE, n ∉ ADJUST_FROM_BASE.map (·.1) := by decide

theorem adjust_names_nodup : (ADJUST_FROM_BASE.map (·.1)).Nodup := by decide

theorem adjust_not_removed : ∀ e ∈ ADJUST_FROM_BASE, e.1 ∉ REMOVE_FILES := by
  decide

/-- C7: `Repository.update_files` is idempotent.  With the base checkout
unchanged between runs, a second run reproduces exactly the filesystem state
of the first: copies and substitutions rewrite the contents already present
and deletions find their targets already gone. -/
theorem update_files_idempotent (r : String) (fs fs' : FS)
    (hnd : (fsKeys fs).Nodup)
    (hok : Repository.update_files r fs = .ok fs') :
    Repository.update_files r fs' = .ok fs' := by
  unfold Repository.update_files at hok ⊢
  by_cases hb : baseRepoName = r
  · rw [if_pos hb] at hok ⊢
    cases hok
    have hid : removeAll r (removeAll r fs) = removeAll r fs :=
      removeAll_id r _ (fun n hn hexc => removeAll_clears r fs n hn hexc)
    rw [hid]
  · rw [if_neg hb] at hok ⊢
    cases h1 : foldStepsE (fun n fs => copyStep r n fs) COPY_FROM_BASE fs with
    | error e => rw [h1] at hok; cases hok
    | ok fs1 =>
      rw [h1] at hok
      dsimp only at hok
      cases h2 : foldStepsE (fun p fs => adjustStep r p fs) ADJUST_FROM_BASE fs1 with
      | error e => rw [h2] at hok; cases hok
      | ok fs2 =>
        rw [h2] at hok
        dsimp only at hok
        cases hok
        have hnd1 : (fsKeys fs1).Nodup := copyFold_nodup r _ fs fs1 h1 hnd
        have hnd2 : (fsKeys fs2).Nodup := adjustFold_nodup r _ fs1 fs2 h2 hnd1
        have hnd' : (fsKeys (removeAll r fs2)).Nodup :=
          removeAll_nodup r fs2 hnd2
        have hcopyid : foldStepsE (fun n fs => copyStep r n fs) COPY_FROM_BASE
            (removeAll r fs2) = .ok (removeAll r fs2) := by
          apply copyFold_id r COPY_FROM_BASE _ hnd'
          intro n hn
          obtain ⟨v, hbase, htgt⟩ :=
            copyFold_ok_lookup r hb COPY_FROM_BASE fs fs1 h1 n hn
          refine ⟨v, ?_, ?_⟩
          · rw [removeAll_frame r fs2 _ (Or.inl hb),
              adjustFold_frame r ADJUST_FROM_BASE fs1 fs2 _ h2 (Or.inl hb),
              copyFold_frame r COPY_FROM_BASE fs fs1 _ h1 (Or.inl hb)]
            exact hbase
          · rw [removeAll_frame r fs2 _ (Or.inr (Or.inl (copy_not_removed n hn))),
              adjustFold_frame r ADJUST_FROM_BASE fs1 fs2 _ h2
                (Or.inr (Or.inl (copy_not_adjusted n hn)))]
            exact htgt
        have hadjid : foldStepsE (fun p fs => adjustStep r p fs) ADJUST_FROM_BASE
            (removeAll r fs2) = .ok (removeAll r fs2) := by
          apply adjustFold_id r ADJUST_FROM_BASE _ hnd'
          intro e he hexc
          obtain ⟨v, hbase, htgt⟩ :=
            adjustFold_ok_lookup r hb ADJUST_FROM_BASE adjust_names_nodup
              fs1 fs2 h2 e he hexc
          refine ⟨v, ?_, ?_⟩
          · rw [removeAll_frame r fs2 _ (Or.inl hb),
              adjustFold_frame r ADJUST_FROM_BASE fs1 fs2 _ h2 (Or.inl hb)]
            exact hbase
          · rw [removeAll_frame r fs2 _
              (Or.inr (Or.inl (adjust_not_removed e he)))]
            exact htgt
        have hremid : removeAll r (removeAll r fs2) = removeAll r fs2 :=
          removeAll_id r _ (fun n hn hexc => removeAll_clears r fs2 n hn hexc)
        rw [hcopyid]
        dsimp only
        rw [hadjid]
        dsimp only
        rw [hremid]

/-- Witness for C7: one concrete run and its identical rerun. -/
theorem update_files_idempotent_witness :
    Repository.update_files "social-app-django"
        [(("social-core", ".pre-commit-config.yaml"), "A"),
         (("social-core", ".github/renovate.json"), "B"),
         (("social-core", ".github/workflows/pre-commit.yml"), "C"),
         (("social-core", ".github/workflows/release.yml"), "D")] =
      .ok
        [(("social-core", ".pre-commit-config.yaml"), "A"),
         (("social-core", ".github/renovate.json"), "B"),
         (("social-core", ".github/workflows/pre-commit.yml"), "C"),
         (("social-core", ".github/workflows/release.yml"), "D"),
         (("social-app-django", ".pre-commit-config.yaml"), "A"),
         (("social-app-django", ".github/renovate.json"), "B"),
         (("social-app-django", ".github/workflows/pre-commit.yml"), "C"),
         (("social-app-django", ".github/workflows/release.yml"), "D")] ∧
    Repository.update_files "social-app-django"
        [(("social-core", ".pre-commit-config.yaml"), "A"),
         (("social-core", ".github/renovate.json"), "B"),
         (("social-core", ".github/workflows/pre-commit.yml"), "C"),
         (("social-core", ".github/workflows/release.yml"), "D"),
         (("social-app-django", ".pre-commit-config.yaml"), "A"),
         (("social-app-django", ".github/renovate.json"), "B"),
         (("social-app-django", ".github/workflows/pre-commit.yml"), "C"),
         (("social-app-django", ".github/workflows/release.yml"), "D")] =
      .ok
        [(("social-core", ".pre-commit-config.yaml"), "A"),
         (("social-core", ".github/renovate.json"), "B"),
         (("social-core", ".github/workflows/pre-commit.yml"), "C"),
         (("social-core", ".github/workflows/release.yml"), "D"),
         (("social-app-django", ".pre-commit-config.yaml"), "A"),
         (("social-app-django", ".github/renovate.json"), "B"),
         (("social-app-django", ".github/workflows/pre-commit.yml"), "C"),
         (("social-app-django", ".github/workflows/release.yml"), "D")] := by
  refine ⟨rfl, ?_⟩
  exact update_files_idempotent "social-app-django"
    [(("social-core", ".pre-commit-config.yaml"), "A"),
     (("social-core", ".github/renovate.json"), "B"),
     (("social-core", ".github/workflows/pre-commit.yml"), "C"),
     (("social-core", ".github/workflows/release.yml"), "D")] _
    (by decide) (by rfl)

/-! ### Parsing lemmas for the README claims -/

theorem loadGo_none_content (ls : List PyStr) (c1 c2 : List PyStr)
    (acc : Sections) : loadGo none c1 acc ls = loadGo none c2 acc ls := by
  induction ls generalizing c1 c2 with
  | nil => rfl
  | cons l rest ih =>
    unfold loadGo
    split
    · rfl
    · exact ih _ _

theorem loadGo_no_heading (ls : List PyStr) (c : List PyStr) (acc : Sections)
    (h : ∀ l ∈ ls, pyStartsWith ['#'] l = false) :
    loadGo none c acc ls = acc := by
  induction ls generalizing c with
  | nil => rfl
  | cons l rest ih =>
    unfold loadGo
    rw [if_neg (by
      rw [h l (List.mem_cons_self l rest)]
      exact fun hh => Bool.false_ne_true hh)]
    exact ih _ (fun l' hl' => h l' (List.mem_cons_of_mem l hl'))

theorem updateStep_nil (sec content : PyStr) : updateStep [] sec content = [] := by
  unfold updateStep
  split
  · rfl
  · split
    · rename_i h
      simp [containsKey] at h
    · rfl

theorem update_nil (base : Sections) : Readme.update [] base = [] := by
  unfold Readme.update
  induction base with
  | nil => rfl
  | cons p rest ih =>
    simp only [List.foldl_cons, updateStep_nil]
    exact ih

/-- C9: lines before the first heading line are recorded under no section and
are discarded by the parse: prepending heading-free lines leaves the parse
unchanged.  In particular a README with no heading line at all parses to the
empty mapping, so `update_readme` rewrites the existing file to empty
content, erasing everything it contained. -/
theorem pre_heading_lines_discarded :
    (∀ (pre ls : List PyStr), (∀ l ∈ pre, pyStartsWith ['#'] l = false) →
      loadLines (pre ++ ls) = loadLines ls) ∧
    (∀ (text : PyStr) (base : Sections),
      (∀ l ∈ splitlines text, pyStartsWith ['#'] l = false) →
      Readme.load_existing text = [] ∧ Repository.update_readme text base = []) := by
  constructor
  · intro pre ls h
    unfold loadLines
    induction pre with
    | nil => rfl
    | cons l rest ih =>
      simp only [List.cons_append]
      rw [show loadGo none [] [] (l :: (rest ++ ls)) =
          loadGo none ([] ++ [l]) [] (rest ++ ls) from by
        rw [loadGo]
        exact if_neg (by
          rw [h l (List.mem_cons_self l rest)]
          exact fun hh => Bool.false_ne_true hh)]
      rw [loadGo_none_content (rest ++ ls) ([] ++ [l]) []]
      exact ih (fun l' hl' => h l' (List.mem_cons_of_mem l hl'))
  · intro text base h
    have hload : Readme.load_existing text = [] :=
      loadGo_no_heading (splitlines text) [] [] h
    refine ⟨hload, ?_⟩
    unfold Repository.update_readme
    rw [hload, update_nil]
    rfl

/-- Witness for C9 at a concrete heading-free file and a concrete prefix. -/
theorem pre_heading_lines_discarded_witness :
    loadLines ("intro".toList :: ["# T".toList]) = loadLines ["# T".toList] ∧
    (Readme.load_existing "no headings here\njust text".toList = [] ∧
      Repository.update_readme "no headings here\njust text".toList
        [("# B".toList, "body".toList)] = []) :=
  ⟨pre_heading_lines_discarded.1 ["intro".toList] ["# T".toList] (by decide),
   pre_heading_lines_discarded.2 "no headings here\njust text".toList
     [("# B".toList, "body".toList)] (by decide)⟩

theorem RS_not_top : ∀ x ∈ README_SECTIONS, pyStartsWith "# ".toList x = false := by
  decide

theorem containsKey_iff_mem (s : Sections) (k : PyStr) :
    containsKey s k = true ↔ k ∈ keysOD s := by
  simp only [containsKey, keysOD, List.any_eq_true, List.mem_map, beq_iff_eq]

theorem lookupOD_mapTop_top (self : Sections) (c k : PyStr)
    (hk : k ∈ keysOD self) (htop : pyStartsWith "# ".toList k = true) :
    lookupOD (self.map
      (fun p => if pyStartsWith "# ".toList p.1 then (p.1, c) else p)) k =
      some c := by
  induction self with
  | nil => cases hk
  | cons p rest ih =>
    simp only [List.map_cons]
    by_cases he : p.1 = k
    · rw [show (if pyStartsWith "# ".toList p.1 then (p.1, c) else p) =
          (p.1, c) from by rw [if_pos (he ▸ htop)]]
      show (if p.1 == k then some c else _) = some c
      rw [if_pos (beq_iff_eq.mpr he)]
    · have hk' : k ∈ keysOD rest := by
        simp only [keysOD, List.map_cons, List.mem_cons] at hk
        exact hk.resolve_left (fun hh => he hh.symm)
      have hfst : (if pyStartsWith "# ".toList p.1 then (p.1, c) else p).1 =
          p.1 := by split <;> rfl
      show (if (if pyStartsWith "# ".toList p.1 then (p.1, c) else p).1 == k
        then some (if pyStartsWith "# ".toList p.1 then (p.1, c) else p).2
        else _) = some c
      rw [hfst]
      rw [if_neg (fun hh => he (beq_iff_eq.mp hh))]
      exact ih hk'

theorem lookupOD_mapTop_notTop (self : Sections) (c k : PyStr)
    (hk : pyStartsWith "# ".toList k = false) :
    lookupOD (self.map
      (fun p => if pyStartsWith "# ".toList p.1 then (p.1, c) else p)) k =
      lookupOD self k := by
  induction self with
  | nil => rfl
  | cons p rest ih =>
    simp only [List.map_cons]
    have hfst : (if pyStartsWith "# ".toList p.1 then (p.1, c) else p).1 =
        p.1 := by split <;> rfl
    by_cases he : p.1 = k
    · have hptop : pyStartsWith "# ".toList p.1 = false := he ▸ hk
      rw [show (if pyStartsWith "# ".toList p.1 then (p.1, c) else p) = p from
        by rw [if_neg (by rw [hptop]; exact fun hh => Bool.false_ne_true hh)]]
      show (if p.1 == k then some p.2 else
          lookupOD (rest.map
            (fun p => if pyStartsWith "# ".toList p.1 then (p.1, c) else p)) k) =
        (if p.1 == k then some p.2 else lookupOD rest k)
      split
      · rfl
      · exact ih
    · show (if (if pyStartsWith "# ".toList p.1 then (p.1, c) else p).1 == k
        then some (if pyStartsWith "# ".toList p.1 then (p.1, c) else p).2
        else _) = _
      rw [hfst]
      rw [if_neg (fun hh => he (beq_iff_eq.mp hh))]
      show _ = (if p.1 == k then some p.2 else lookupOD rest k)
      rw [if_neg (fun hh => he (beq_iff_eq.mp hh))]
      exact ih

theorem lookupOD_insert_self (s : Sections) (k v : PyStr) :
    lookupOD (insertOD s k v) k = some v := by
  unfold insertOD
  by_cases hc : containsKey s k = true
  · rw [if_pos hc]
    induction s with
    | nil => simp [containsKey] at hc
    | cons p rest ih =>
      simp only [List.map_cons]
      by_cases he : p.1 == k
      · rw [if_pos he]
        show (if p.1 == k then some v else _) = some v
        rw [if_pos he]
      · rw [if_neg he]
        show (if p.1 == k then some p.2 else _) = some v
        rw [if_neg he]
        apply ih
        simp only [containsKey, List.any_cons, Bool.or_eq_true] at hc
        exact (hc.resolve_left (fun hh => he hh) : _)
  · rw [if_neg hc]
    induction s with
    | nil =>
      show (if k == k then some v else none) = some v
      rw [if_pos (beq_iff_eq.mpr rfl)]
    | cons p rest ih =>
      simp only [containsKey, List.any_cons, Bool.or_eq_true, not_or] at hc
      show (if p.1 == k then some p.2 else lookupOD (rest ++ [(k, v)]) k) =
        some v
      rw [if_neg hc.1]
      exact ih (by simpa [containsKey] using hc.2)

theorem lookupOD_map_ne (s : Sections) (k k' v : PyStr) (h : k' ≠ k) :
    lookupOD (s.map (fun p => if p.1 == k then (p.1, v) else p)) k' =
      lookupOD s k' := by
  induction s with
  | nil => rfl
  | cons p rest ih =>
    simp only [List.map_cons]
    by_cases he : (p.1 == k) = true
    · rw [if_pos he]
      have he' : p.1 = k := beq_iff_eq.mp he
      show (if p.1 == k' then some v else _) =
        (if p.1 == k' then some p.2 else _)
      rw [if_neg (fun hh : (p.1 == k') = true =>
          h ((beq_iff_eq.mp hh).symm.trans he')),
        if_neg (fun hh : (p.1 == k') = true =>
          h ((beq_iff_eq.mp hh).symm.trans he'))]
      exact ih
    · rw [if_neg he]
      show (if p.1 == k' then some p.2 else _) =
        (if p.1 == k' then some p.2 else _)
      split
      · rfl
      · exact ih

theorem lookupOD_append_one_ne (s : Sections) (k k' v : PyStr) (h : k' ≠ k) :
    lookupOD (s ++ [(k, v)]) k' = lookupOD s k' := by
  induction s with
  | nil =>
    show (if k == k' then some v else none) = none
    rw [if_neg (fun hh : (k == k') = true => h (beq_iff_eq.mp hh).symm)]
  | cons p rest ih =>
    show (if p.1 == k' then some p.2 else _) =
      (if p.1 == k' then some p.2 else _)
    split
    · rfl
    · exact ih

theorem lookupOD_insert_ne (s : Sections) (k k' v : PyStr) (h : k' ≠ k) :
    lookupOD (insertOD s k v) k' = lookupOD s k' := by
  unfold insertOD
  split
  · exact lookupOD_map_ne s k k' v h
  · exact lookupOD_append_one_ne s k k' v h

/-- C3: after `Readme.update`, a target section whose heading starts with
`"# "` carries the base's (last) top-level body when the base has one; an
allow-listed heading present in both carries the base's body for that
heading; every other target section keeps its body unchanged. -/
theorem readme_update_section_values (self base : Sections) (k : PyStr)
    (hk : k ∈ keysOD self) :
    (pyStartsWith "# ".toList k = true →
      lookupOD (Readme.update self base) k =
        (match lastTop base with
          | some c => some c
          | none => lookupOD self k)) ∧
    (pyStartsWith "# ".toList k = false → k ∈ README_SECTIONS →
      lookupOD (Readme.update self base) k =
        (match lookupLast base k with
          | some c => some c
          | none => lookupOD self k)) ∧
    (pyStartsWith "# ".toList k = false → k ∉ README_SECTIONS →
      lookupOD (Readme.update self base) k = lookupOD self k) := by
  induction base generalizing self with
  | nil => exact ⟨fun _ => rfl, fun _ _ => rfl, fun _ _ => rfl⟩
  | cons p rest ih =>
    have hkeys : k ∈ keysOD (updateStep self p.1 p.2) := by
      rw [keysOD_updateStep]
      exact hk
    obtain ⟨ih1, ih2, ih3⟩ := ih (updateStep self p.1 p.2) hkeys
    have hupd : Readme.update self (p :: rest) =
        Readme.update (updateStep self p.1 p.2) rest := rfl
    refine ⟨?_, ?_, ?_⟩
    · intro htop
      rw [hupd, ih1 htop]
      cases hlt : lastTop rest with
      | some c =>
        have hl : lastTop (p :: rest) = some c := by
          unfold lastTop
          rw [hlt]
        rw [hl]
      | none =>
        have hl : lastTop (p :: rest) =
            (if pyStartsWith "# ".toList p.1 then some p.2 else none) := by
          unfold lastTop
          rw [hlt]
        rw [hl]
        by_cases hp : pyStartsWith "# ".toList p.1 = true
        · rw [if_pos hp]
          show lookupOD (updateStep self p.1 p.2) k = some p.2
          have hstep : updateStep self p.1 p.2 = self.map
              (fun q => if pyStartsWith "# ".toList q.1 then (q.1, p.2) else q) := by
            unfold updateStep
            rw [if_pos hp]
          rw [hstep]
          exact lookupOD_mapTop_top self p.2 k hk htop
        · rw [if_neg hp]
          show lookupOD (updateStep self p.1 p.2) k = lookupOD self k
          unfold updateStep
          rw [if_neg hp]
          split
          · rename_i hcond
            apply lookupOD_insert_ne
            intro he
            have hmem : p.1 ∈ README_SECTIONS :=
              List.elem_iff.mp (Bool.and_elim_left hcond)
            have hnt := RS_not_top p.1 hmem
            rw [← he, htop] at hnt
            cases hnt
          · rfl
    · intro htop hRS
      rw [hupd, ih2 htop hRS]
      cases hll : lookupLast rest k with
      | some c =>
        have hl : lookupLast (p :: rest) k = some c := by
          unfold lookupLast
          rw [hll]
        rw [hl]
      | none =>
        have hl : lookupLast (p :: rest) k =
            (if p.1 == k then some p.2 else none) := by
          unfold lookupLast
          rw [hll]
        rw [hl]
        by_cases he : (p.1 == k) = true
        · rw [if_pos he]
          have he' : p.1 = k := beq_iff_eq.mp he
          show lookupOD (updateStep self p.1 p.2) k = some p.2
          have hstep : updateStep self p.1 p.2 = insertOD self p.1 p.2 := by
            unfold updateStep
            rw [if_neg (by
              rw [he', htop]
              exact fun hh => Bool.false_ne_true hh)]
            rw [if_pos (by
              rw [he', Bool.and_eq_true]
              exact ⟨List.elem_iff.mpr hRS, (containsKey_iff_mem self k).mpr hk⟩)]
          rw [hstep, he']
          exact lookupOD_insert_self self k p.2
        · rw [if_neg he]
          have hne : k ≠ p.1 := fun hh => he (beq_iff_eq.mpr hh.symm)
          show lookupOD (updateStep self p.1 p.2) k = lookupOD self k
          unfold updateStep
          split
          · exact lookupOD_mapTop_notTop self p.2 k htop
          · split
            · exact lookupOD_insert_ne self p.1 k p.2 hne
            · rfl
    · intro htop hRS
      rw [hupd, ih3 htop hRS]
      show lookupOD (updateStep self p.1 p.2) k = lookupOD self k
      unfold updateStep
      split
      · exact lookupOD_mapTop_notTop self p.2 k htop
      · split
        · rename_i hcond
          apply lookupOD_insert_ne
          intro he
          exact hRS (he ▸ List.elem_iff.mp (Bool.and_elim_left hcond))
        · rfl

theorem keysOD_insertOD (s : Sections) (k v : PyStr) :
    keysOD (insertOD s k v) =
      if k ∈ keysOD s then keysOD s else keysOD s ++ [k] := by
  unfold insertOD
  by_cases hc : containsKey s k = true
  · rw [if_pos hc, if_pos ((containsKey_iff_mem s k).mp hc)]
    exact keysOD_map_of_fst s _ (fun p => by split <;> rfl)
  · rw [if_neg hc,
      if_neg (fun hm => hc ((containsKey_iff_mem s k).mpr hm))]
    simp [keysOD]

theorem keysOD_flush (sec : Option PyStr) (content : List PyStr)
    (acc : Sections) :
    keysOD (flushSection sec content acc) =
      (match sec with
       | none => []
       | some s => [s]).foldl addKey (keysOD acc) := by
  cases sec with
  | none => rfl
  | some s =>
    show keysOD (insertOD acc s (joinNL content)) = addKey (keysOD acc) s
    rw [keysOD_insertOD]
    rfl

theorem loadGo_keys (lines : List PyStr) (sec : Option PyStr)
    (content : List PyStr) (acc : Sections) :
    keysOD (loadGo sec content acc lines) =
      (pendingHeads sec lines).foldl addKey (keysOD acc) := by
  induction lines generalizing sec content acc with
  | nil =>
    show keysOD (flushSection sec content acc) = _
    rw [keysOD_flush]
    unfold pendingHeads
    rw [List.filter_nil, List.append_nil]
  | cons l rest ih =>
    by_cases hl : pyStartsWith ['#'] l = true
    · rw [show loadGo sec content acc (l :: rest) =
          loadGo (some l) [] (flushSection sec content acc) rest from by
        rw [loadGo]
        exact if_pos hl]
      rw [ih]
      unfold pendingHeads
      rw [List.filter_cons_of_pos hl]
      simp only [List.foldl_append]
      rw [keysOD_flush]
      cases sec with
      | none => rfl
      | some s => rfl
    · rw [show loadGo sec content acc (l :: rest) =
          loadGo sec (content ++ [l]) acc rest from by
        rw [loadGo]
        exact if_neg hl]
      rw [ih]
      unfold pendingHeads
      rw [List.filter_cons_of_neg hl]

theorem foldl_addKey_dedup (l : List PyStr) (acc : List PyStr) :
    l.foldl addKey acc =
      acc ++ dedupFirst (l.filter (fun x => decide (x ∉ acc))) := by
  induction l generalizing acc with
  | nil => simp [dedupFirst]
  | cons x rest ih =>
    simp only [List.foldl_cons]
    by_cases hx : x ∈ acc
    · have haddr : addKey acc x = acc := by
        unfold addKey
        rw [if_pos hx]
      rw [haddr, ih]
      rw [List.filter_cons_of_neg (by simp [hx])]
    · have haddr : addKey acc x = acc ++ [x] := by
        unfold addKey
        rw [if_neg hx]
      rw [haddr, ih]
      rw [List.filter_cons_of_pos (by simp [hx])]
      have hped : rest.filter (fun y => decide (y ∉ acc ++ [x])) =
          (rest.filter (fun y => decide (y ∉ acc))).filter
            (fun y => !(y == x)) := by
        rw [List.filter_filter]
        apply List.filter_congr
        intro y _
        by_cases hy1 : y ∈ acc <;> by_cases hy2 : y = x <;>
          simp [hy1, hy2, List.mem_append]
      rw [hped]
      rw [show dedupFirst (x :: rest.filter (fun y => decide (y ∉ acc))) =
        x :: dedupFirst ((rest.filter (fun y => decide (y ∉ acc))).filter
          (fun y => !(y == x))) from by
        rw [dedupFirst]]
      simp [List.append_assoc]

theorem loadGo_lookup (h : PyStr) (hh : pyStartsWith ['#'] h = true)
    (lines : List PyStr) :
    ∀ (sec : Option PyStr) (content : List PyStr) (acc : Sections),
    lookupOD (loadGo sec content acc lines) h =
      (match lastBody lines h with
       | some b => some b
       | none =>
         if sec = some h then
           some (joinNL (content ++
             lines.takeWhile (fun x => !(pyStartsWith ['#'] x))))
         else lookupOD acc h) := by
  induction lines with
  | nil =>
    intro sec content acc
    show lookupOD (flushSection sec content acc) h = _
    cases sec with
    | none =>
      show lookupOD acc h = _
      rw [if_neg (fun hhh : (none : Option PyStr) = some h => by cases hhh)]
      rfl
    | some s =>
      show lookupOD (insertOD acc s (joinNL content)) h = _
      by_cases hs : s = h
      · subst hs
        rw [if_pos rfl, List.takeWhile_nil, List.append_nil]
        exact lookupOD_insert_self acc s (joinNL content)
      · rw [if_neg (fun hhh => hs (Option.some.inj hhh))]
        exact lookupOD_insert_ne acc s h _ (fun hhh => hs hhh.symm)
  | cons l rest ih =>
    intro sec content acc
    by_cases hl : pyStartsWith ['#'] l = true
    · rw [show loadGo sec content acc (l :: rest) =
          loadGo (some l) [] (flushSection sec content acc) rest from by
        rw [loadGo]
        exact if_pos hl]
      rw [ih (some l) [] (flushSection sec content acc)]
      have htw : (l :: rest).takeWhile (fun x => !(pyStartsWith ['#'] x)) = [] := by
        rw [List.takeWhile_cons_of_neg (by rw [hl]; exact fun hhh => by cases hhh)]
      cases hlb : lastBody rest h with
      | some b =>
        have : lastBody (l :: rest) h = some b := by
          rw [lastBody, hlb]
        rw [this]
      | none =>
        by_cases hle : (l == h) = true
        · have hle' : l = h := beq_iff_eq.mp hle
          have : lastBody (l :: rest) h =
              some (joinNL (rest.takeWhile (fun x => !(pyStartsWith ['#'] x)))) := by
            rw [lastBody, hlb]
            dsimp only
            rw [if_pos hle]
          rw [this, if_pos (by rw [hle'])]
          rfl
        · have : lastBody (l :: rest) h = none := by
            rw [lastBody, hlb]
            dsimp only
            rw [if_neg (fun hhh => hle hhh)]
          rw [this, if_neg (fun hhh : some l = some h =>
            hle (beq_iff_eq.mpr (Option.some.inj hhh)))]
          rw [htw]
          cases sec with
          | none =>
            show lookupOD acc h = _
            rw [if_neg (fun hhh : (none : Option PyStr) = some h => by cases hhh)]
          | some s =>
            show lookupOD (insertOD acc s (joinNL content)) h = _
            by_cases hs : s = h
            · subst hs
              rw [if_pos rfl, List.append_nil]
              exact lookupOD_insert_self acc s (joinNL content)
            · rw [if_neg (fun hhh => hs (Option.some.inj hhh))]
              exact lookupOD_insert_ne acc s h _ (fun hhh => hs hhh.symm)
    · rw [show loadGo sec content acc (l :: rest) =
          loadGo sec (content ++ [l]) acc rest from by
        rw [loadGo]
        exact if_neg hl]
      rw [ih sec (content ++ [l]) acc]
      have hlh : l ≠ h := fun hhh => hl (hhh ▸ hh)
      have hlb2 : lastBody (l :: rest) h = lastBody rest h := by
        rw [lastBody]
        cases hlb : lastBody rest h with
        | some b => rfl
        | none =>
          dsimp only
          rw [if_neg (fun hhh => hlh (beq_iff_eq.mp hhh))]
      rw [hlb2]
      cases hlb : lastBody rest h with
      | some b => rfl
      | none =>
        have htw : (l :: rest).takeWhile (fun x => !(pyStartsWith ['#'] x)) =
            l :: rest.takeWhile (fun x => !(pyStartsWith ['#'] x)) := by
          rw [List.takeWhile_cons_of_pos (by
            cases hpc : pyStartsWith ['#'] l with
            | false => rfl
            | true => exact absurd hpc hl)]
        rw [htw]
        rw [show content ++ l :: rest.takeWhile (fun x => !(pyStartsWith ['#'] x)) =
          (content ++ [l]) ++ rest.takeWhile (fun x => !(pyStartsWith ['#'] x)) from by
          simp [List.append_assoc]]

/-- C6: `Readme.load_existing` maps each heading line of the text (in first
occurrence document order, the insertion order of the Python dict) to the
newline-join of the lines following its last occurrence up to the next
heading line; a repeated heading silently overwrites the earlier body. -/
theorem load_existing_characterization (text : PyStr) :
    keysOD (Readme.load_existing text) =
      dedupFirst ((splitlines text).filter (fun l => pyStartsWith ['#'] l)) ∧
    (∀ h : PyStr, pyStartsWith ['#'] h = true →
      lookupOD (Readme.load_existing text) h = lastBody (splitlines text) h) := by
  constructor
  · show keysOD (loadGo none [] [] (splitlines text)) = _
    rw [loadGo_keys]
    unfold pendingHeads
    rw [show keysOD ([] : Sections) = [] from rfl]
    rw [foldl_addKey_dedup]
    rw [List.nil_append, List.nil_append]
    congr 1
    exact List.filter_eq_self.mpr (fun a _ => by simp)
  · intro h hh
    show lookupOD (loadGo none [] [] (splitlines text)) h = _
    rw [loadGo_lookup h hh (splitlines text) none [] []]
    cases hlb : lastBody (splitlines text) h with
    | some b => rfl
    | none =>
      rw [if_neg (fun hhh : (none : Option PyStr) = some h => by cases hhh)]
      rfl

/-- Witness for C6 on a text with a duplicated heading. -/
theorem load_existing_characterization_witness :
    keysOD (Readme.load_existing "# A\ndup\n# A\nsecond\n## B\nb".toList) =
      dedupFirst ((splitlines "# A\ndup\n# A\nsecond\n## B\nb".toList).filter
        (fun l => pyStartsWith ['#'] l)) ∧
    lookupOD (Readme.load_existing "# A\ndup\n# A\nsecond\n## B\nb".toList)
        "# A".toList =
      lastBody (splitlines "# A\ndup\n# A\nsecond\n## B\nb".toList) "# A".toList :=
  ⟨(load_existing_characterization "# A\ndup\n# A\nsecond\n## B\nb".toList).1,
   (load_existing_characterization "# A\ndup\n# A\nsecond\n## B\nb".toList).2
     "# A".toList (by decide)⟩

/-- Witness for C3 on the example of the specification: the `## License`
body is replaced by the base's. -/
theorem readme_update_section_values_witness :
    lookupOD
      (Readme.update
        [("# Forked Project".toList, "Old text".toList),
         ("## License".toList, "Old license".toList),
         ("## Extra".toList, "Keep me".toList)]
        [("# Project".toList, "Description A".toList),
         ("## License".toList, "MIT".toList)])
      "## License".toList = some "MIT".toList :=
  ((readme_update_section_values
      [("# Forked Project".toList, "Old text".toList),
       ("## License".toList, "Old license".toList),
       ("## Extra".toList, "Keep me".toList)]
      [("# Project".toList, "Description A".toList),
       ("## License".toList, "MIT".toList)]
      "## License".toList (by decide)).2.1 (by decide) (by decide)).trans
    (by decide)

/-! ### Segment and line algebra for the parse-render round trip -/

theorem segsNL_ne_nil (x : PyStr) : segsNL x ≠ [] := by
  cases x with
  | nil => exact fun h => by cases h
  | cons c rest =>
    unfold segsNL
    split
    · exact fun h => by cases h
    · split
      · exact fun h => by cases h
      · exact fun h => by cases h

theorem joinNL_cons (s : PyStr) (rest : List PyStr) (h : rest ≠ []) :
    joinNL (s :: rest) = s ++ '\n' :: joinNL rest := by
  cases rest with
  | nil => exact absurd rfl h
  | cons t ts => rfl

theorem joinNL_segsNL (x : PyStr) : joinNL (segsNL x) = x := by
  induction x with
  | nil => rfl
  | cons c rest ih =>
    unfold segsNL
    by_cases hc : c = '\n'
    · rw [if_pos hc]
      rw [joinNL_cons [] (segsNL rest) (segsNL_ne_nil rest)]
      rw [ih, hc]
      rfl
    · rw [if_neg hc]
      cases hs : segsNL rest with
      | nil => exact absurd hs (segsNL_ne_nil rest)
      | cons s ss =>
        cases ss with
        | nil =>
          show joinNL [c :: s] = c :: rest
          rw [hs] at ih
          show c :: s = c :: rest
          rw [show s = joinNL [s] from rfl, ih]
        | cons t ts =>
          rw [show joinNL ((c :: s) :: t :: ts) =
            (c :: s) ++ '\n' :: joinNL (t :: ts) from rfl]
          rw [hs] at ih
          rw [joinNL_cons s (t :: ts) (fun h => by cases h)] at ih
          show c :: (s ++ '\n' :: joinNL (t :: ts)) = c :: rest
          rw [ih]

theorem segsNL_no_nl (l : PyStr) (h : ∀ c ∈ l, c ≠ '\n') : segsNL l = [l] := by
  induction l with
  | nil => rfl
  | cons c rest ih =>
    unfold segsNL
    rw [if_neg (h c (List.mem_cons_self c rest))]
    rw [ih (fun c' hc' => h c' (List.mem_cons_of_mem c hc'))]

theorem segsNL_append_nl (l z : PyStr) (h : ∀ c ∈ l, c ≠ '\n') :
    segsNL (l ++ '\n' :: z) = l :: segsNL z := by
  induction l with
  | nil =>
    show segsNL ('\n' :: z) = [] :: segsNL z
    rw [segsNL, if_pos rfl]
  | cons c rest ih =>
    show segsNL (c :: (rest ++ '\n' :: z)) = (c :: rest) :: segsNL z
    rw [segsNL, if_neg (h c (List.mem_cons_self c rest)),
      ih (fun c' hc' => h c' (List.mem_cons_of_mem c hc'))]

theorem segsNL_joinNL (ls : List PyStr) (hne : ls ≠ [])
    (h : ∀ s ∈ ls, ∀ c ∈ s, c ≠ '\n') : segsNL (joinNL ls) = ls := by
  induction ls with
  | nil => exact absurd rfl hne
  | cons s rest ih =>
    cases rest with
    | nil =>
      show segsNL (joinNL [s]) = [s]
      exact segsNL_no_nl s (h s (List.mem_cons_self s []))
    | cons t ts =>
      rw [joinNL_cons s (t :: ts) (fun hh => by cases hh)]
      rw [segsNL_append_nl s (joinNL (t :: ts)) (h s (List.mem_cons_self s _))]
      rw [ih (fun hh => by cases hh)
        (fun s' hs' c hc => h s' (List.mem_cons_of_mem s hs') c hc)]

theorem slGo_lines_breakFree (s : List Char) :
    ∀ (cur : List Char) (b : Bool), (∀ c ∈ cur, isLineBreak c = false) →
    ∀ l ∈ slGo s cur b, breakFree l := by
  induction s with
  | nil =>
    intro cur b hcur l hl
    unfold slGo at hl
    split at hl
    · cases hl
    · rw [List.mem_singleton] at hl
      subst hl
      intro c hc
      exact hcur c (List.mem_reverse.mp hc)
  | cons c rest ih =>
    intro cur b hcur l hl
    unfold slGo at hl
    split at hl
    · rename_i hc
      split at hl
      · exact ih [] false (by intro c' hc'; cases hc') l hl
      · cases hl with
        | head =>
          intro c' hc'
          exact hcur c' (List.mem_reverse.mp hc')
        | tail _ h2 => exact ih [] false (by intro c' hc'; cases hc') l h2
    · split at hl
      · cases hl with
        | head =>
          intro c' hc'
          exact hcur c' (List.mem_reverse.mp hc')
        | tail _ h2 => exact ih [] true (by intro c' hc'; cases hc') l h2
      · split at hl
        · cases hl with
          | head =>
            intro c' hc'
            exact hcur c' (List.mem_reverse.mp hc')
          | tail _ h2 => exact ih [] false (by intro c' hc'; cases hc') l h2
        · rename_i hc1 hc2 hc3
          refine ih (c :: cur) false ?_ l hl
          intro c' hc'
          cases hc' with
          | head => exact Bool.eq_false_iff.mpr hc3
          | tail _ hmem => exact hcur c' hmem

theorem splitlines_breakFree (x : PyStr) : ∀ l ∈ splitlines x, breakFree l :=
  slGo_lines_breakFree x [] false (by intro c hc; cases hc)

theorem breakFree_ne_nl (c : Char) (h : isLineBreak c = false) : c ≠ '\n' := by
  intro hc
  rw [hc] at h
  exact absurd h (by decide)

theorem breakFree_ne_cr (c : Char) (h : isLineBreak c = false) : c ≠ '\r' := by
  intro hc
  rw [hc] at h
  exact absurd h (by decide)

theorem slGo_line_nl (l : PyStr) (hl : breakFree l) (z : List Char) :
    ∀ cur : List Char,
    slGo (l ++ '\n' :: z) cur false = (cur.reverse ++ l) :: slGo z [] false := by
  induction l with
  | nil =>
    intro cur
    show slGo ('\n' :: z) cur false = (cur.reverse ++ []) :: slGo z [] false
    rw [slGo, if_pos rfl, if_neg (by decide : ¬(false = true)), List.append_nil]
  | cons c rest ih =>
    intro cur
    have hc : isLineBreak c = false := hl c (List.mem_cons_self c rest)
    show slGo (c :: (rest ++ '\n' :: z)) cur false = _
    rw [slGo, if_neg (breakFree_ne_nl c hc), if_neg (breakFree_ne_cr c hc),
      if_neg (fun hh => absurd (hc ▸ hh) (by simp)),
      ih (fun c' hc' => hl c' (List.mem_cons_of_mem c hc')) (c :: cur)]
    rw [List.reverse_cons, List.append_assoc]
    rfl

theorem splitlines_line_nl (l : PyStr) (hl : breakFree l) (z : PyStr) :
    splitlines (l ++ '\n' :: z) = l :: splitlines z := by
  unfold splitlines
  rw [slGo_line_nl l hl z []]
  rfl

theorem splitlines_joinNL_nl (ls : List PyStr) (hne : ls ≠ [])
    (h : ∀ s ∈ ls, breakFree s) (z : PyStr) :
    splitlines (joinNL ls ++ '\n' :: z) = ls ++ splitlines z := by
  induction ls with
  | nil => exact absurd rfl hne
  | cons s rest ih =>
    cases rest with
    | nil =>
      show splitlines (s ++ '\n' :: z) = [s] ++ splitlines z
      rw [splitlines_line_nl s (h s (List.mem_cons_self s _)) z]
      rfl
    | cons t ts =>
      rw [joinNL_cons s (t :: ts) (fun hh => by cases hh)]
      rw [List.append_assoc]
      rw [show ('\n' :: joinNL (t :: ts)) ++ '\n' :: z =
        '\n' :: (joinNL (t :: ts) ++ '\n' :: z) from rfl]
      rw [splitlines_line_nl s (h s (List.mem_cons_self s _))]
      rw [ih (fun hh => by cases hh)
        (fun s' hs' => h s' (List.mem_cons_of_mem s hs'))]
      rfl

theorem splitlines_joinNL_last (ls : List PyStr) (hne : ls ≠ [])
    (h : ∀ s ∈ ls, breakFree s) :
    splitlines (joinNL ls ++ ['\n']) = ls := by
  have := splitlines_joinNL_nl ls hne h []
  rw [show joinNL ls ++ '\n' :: ([] : PyStr) = joinNL ls ++ ['\n'] from rfl] at this
  rw [this, show splitlines [] = [] from rfl, List.append_nil]

theorem splitlines_save (s : Sections)
    (hshape : ∀ p ∈ s, breakFree (pyStrip p.1) ∧
      ∀ c ∈ segsNL (pyStrip p.2), breakFree c) :
    splitlines (Readme.save s) = savedLines s := by
  induction s with
  | nil => rfl
  | cons p rest ih =>
    obtain ⟨hK, hC⟩ := hshape p (List.mem_cons_self p rest)
    have hCne : segsNL (pyStrip p.2) ≠ [] := segsNL_ne_nil _
    cases rest with
    | nil =>
      show splitlines (joinNL [pyStrip p.1 ++ '\n' :: '\n' :: pyStrip p.2 ++ ['\n']]) =
        savedLines [p]
      rw [show joinNL [pyStrip p.1 ++ '\n' :: '\n' :: pyStrip p.2 ++ ['\n']] =
        pyStrip p.1 ++ '\n' :: ([] ++ '\n' :: (pyStrip p.2 ++ ['\n'])) from by
        show pyStrip p.1 ++ '\n' :: '\n' :: pyStrip p.2 ++ ['\n'] = _
        simp]
      rw [splitlines_line_nl (pyStrip p.1) hK]
      rw [splitlines_line_nl [] (fun c hc => by cases hc)]
      rw [show pyStrip p.2 ++ ['\n'] = joinNL (segsNL (pyStrip p.2)) ++ ['\n'] from by
        rw [joinNL_segsNL]]
      rw [splitlines_joinNL_last _ hCne hC]
      show _ = pyStrip p.1 ::
        (([] :: segsNL (pyStrip p.2) ++ []) ++ [])
      simp
    | cons q qs =>
      rw [show Readme.save (p :: q :: qs) =
        (pyStrip p.1 ++ '\n' :: '\n' :: pyStrip p.2 ++ ['\n']) ++
          '\n' :: Readme.save (q :: qs) from by
        show joinNL _ = _
        rw [List.map_cons, joinNL_cons _ _ (by simp)]
        rfl]
      rw [show (pyStrip p.1 ++ '\n' :: '\n' :: pyStrip p.2 ++ ['\n']) ++
          '\n' :: Readme.save (q :: qs) =
        pyStrip p.1 ++ '\n' :: ([] ++ '\n' ::
          (pyStrip p.2 ++ '\n' :: ('\n' :: Readme.save (q :: qs)))) from by
        simp]
      rw [splitlines_line_nl (pyStrip p.1) hK]
      rw [splitlines_line_nl [] (fun c hc => by cases hc)]
      rw [show pyStrip p.2 ++ '\n' :: ('\n' :: Readme.save (q :: qs)) =
        joinNL (segsNL (pyStrip p.2)) ++ '\n' :: ('\n' :: Readme.save (q :: qs))
        from by rw [joinNL_segsNL]]
      rw [splitlines_joinNL_nl _ hCne hC]
      rw [show splitlines ('\n' :: Readme.save (q :: qs)) =
        [] :: splitlines (Readme.save (q :: qs)) from
        splitlines_line_nl [] (fun c hc => by cases hc) _]
      rw [ih (fun p' hp' => hshape p' (List.mem_cons_of_mem p hp'))]
      show _ = pyStrip p.1 ::
        (([] :: segsNL (pyStrip p.2) ++ [[]]) ++ savedLines (q :: qs))
      simp

/-! ### strip algebra -/

theorem lstrip_cons_nl (x : PyStr) : lstrip ('\n' :: x) = lstrip x := by
  unfold lstrip
  rw [List.dropWhile_cons, if_pos (by decide)]

theorem rstrip_append_nl (x : PyStr) : rstrip (x ++ ['\n']) = rstrip x := by
  unfold rstrip
  rw [List.reverse_append, show ['\n'].reverse ++ x.reverse =
    '\n' :: x.reverse from rfl]
  rw [List.dropWhile_cons, if_pos (by decide)]

theorem pyStrip_cons_nl (x : PyStr) : pyStrip ('\n' :: x) = pyStrip x := by
  unfold pyStrip
  rw [lstrip_cons_nl]

theorem pyStrip_append_nl (x : PyStr) : pyStrip (x ++ ['\n']) = pyStrip x := by
  unfold pyStrip lstrip
  rw [List.dropWhile_append]
  split
  · rename_i hemp
    rw [show List.dropWhile isPyWS ['\n'] = [] from by decide]
    rw [List.isEmpty_iff] at hemp
    rw [hemp]
  · exact rstrip_append_nl _

theorem rstrip_idem (x : PyStr) : rstrip (rstrip x) = rstrip x := by
  unfold rstrip
  rw [List.reverse_reverse, List.dropWhile_idempotent]

theorem dropWhile_head_false (p : Char → Bool) (l : List Char) (c : Char)
    (t : List Char) (h : l.dropWhile p = c :: t) : p c = false := by
  induction l with
  | nil => cases h
  | cons a rest ih =>
    rw [List.dropWhile_cons] at h
    split at h
    · exact ih h
    · rename_i ha
      cases h
      exact Bool.eq_false_iff.mpr ha

theorem rstrip_cons_head (c : Char) (l : PyStr) (hc : isPyWS c = false) :
    ∃ t, rstrip (c :: l) = c :: t := by
  unfold rstrip
  rw [show (c :: l).reverse = l.reverse ++ [c] from by simp]
  rw [List.dropWhile_append]
  split
  · rw [show List.dropWhile isPyWS [c] = [c] from by
      rw [List.dropWhile_cons, if_neg (by rw [hc]; exact (by decide))]]
    exact ⟨[], rfl⟩
  · rw [List.reverse_append]
    exact ⟨(l.reverse.dropWhile isPyWS).reverse, by simp⟩

theorem lstrip_of_head_not_ws (c : Char) (l : PyStr) (hc : isPyWS c = false) :
    lstrip (c :: l) = c :: l := by
  unfold lstrip
  rw [List.dropWhile_cons, if_neg (by rw [hc]; exact (by decide))]

theorem pyStrip_idem (x : PyStr) : pyStrip (pyStrip x) = pyStrip x := by
  unfold pyStrip
  cases hl : lstrip x with
  | nil =>
    rw [show rstrip [] = [] from rfl]
    rw [show lstrip [] = [] from rfl]
    rw [show rstrip [] = [] from rfl]
  | cons c t =>
    have hc : isPyWS c = false := dropWhile_head_false isPyWS x c t hl
    obtain ⟨t', ht'⟩ := rstrip_cons_head c t hc
    rw [ht', lstrip_of_head_not_ws c t' hc, ← ht', rstrip_idem]

theorem mem_lstrip (x : PyStr) (c : Char) (h : c ∈ lstrip x) : c ∈ x := by
  induction x with
  | nil => cases h
  | cons a rest ih =>
    unfold lstrip at h
    rw [List.dropWhile_cons] at h
    split at h
    · exact List.mem_cons_of_mem a (ih h)
    · exact h

theorem mem_rstrip (x : PyStr) (c : Char) (h : c ∈ rstrip x) : c ∈ x := by
  unfold rstrip at h
  rw [List.mem_reverse] at h
  have := mem_lstrip x.reverse c h
  rwa [List.mem_reverse] at this

theorem mem_pyStrip (x : PyStr) (c : Char) (h : c ∈ pyStrip x) : c ∈ x :=
  mem_lstrip x c (mem_rstrip (lstrip x) c h)

theorem pyStrip_hash_head (k : PyStr) (hk : pyStartsWith ['#'] k = true) :
    pyStartsWith ['#'] (pyStrip k) = true := by
  cases k with
  | nil => cases hk
  | cons c rest =>
    have hc : c = '#' := by
      unfold pyStartsWith List.isPrefixOf at hk
      simp only [Bool.and_eq_true, beq_iff_eq] at hk
      exact hk.1.symm
    subst hc
    unfold pyStrip
    rw [lstrip_of_head_not_ws '#' rest (by decide)]
    obtain ⟨t, ht⟩ := rstrip_cons_head '#' rest (by decide)
    rw [ht]
    unfold pyStartsWith List.isPrefixOf
    simp

/-! ### heading-freeness of newline segments -/

theorem pyStartsWith_hash_cons (c : Char) (s : PyStr) :
    pyStartsWith ['#'] (c :: s) = ('#' == c) := by
  unfold pyStartsWith
  show List.isPrefixOf ['#'] (c :: s) = ('#' == c)
  rw [List.isPrefixOf]
  simp [List.isPrefixOf]

theorem pyStartsWith_hash_nil : pyStartsWith ['#'] [] = false := rfl

theorem segsNL_cons_nl (y : PyStr) : segsNL ('\n' :: y) = [] :: segsNL y := by
  rw [segsNL, if_pos rfl]

theorem segsNL_cons_ne (c : Char) (y : PyStr) (hc : c ≠ '\n') :
    ∃ s ss, segsNL y = s :: ss ∧ segsNL (c :: y) = (c :: s) :: ss := by
  cases hy : segsNL y with
  | nil => exact absurd hy (segsNL_ne_nil y)
  | cons s ss =>
    refine ⟨s, ss, rfl, ?_⟩
    rw [segsNL, if_neg hc, hy]

theorem noHashSegs_cons_nl (y : PyStr) :
    noHashSegs ('\n' :: y) ↔ noHashSegs y := by
  unfold noHashSegs
  rw [segsNL_cons_nl]
  constructor
  · intro h seg hseg
    exact h seg (List.mem_cons_of_mem _ hseg)
  · intro h seg hseg
    cases hseg with
    | head => exact pyStartsWith_hash_nil
    | tail _ hm => exact h seg hm

theorem noHashTailSegs_cons_nl (y : PyStr) :
    noHashTailSegs ('\n' :: y) ↔ noHashSegs y := by
  unfold noHashTailSegs noHashSegs
  rw [segsNL_cons_nl]
  exact Iff.rfl

theorem noHashSegs_cons_ne (c : Char) (y : PyStr) (hc : c ≠ '\n') :
    noHashSegs (c :: y) ↔ (('#' == c) = false ∧ noHashTailSegs y) := by
  obtain ⟨s, ss, hy, hcy⟩ := segsNL_cons_ne c y hc
  unfold noHashSegs noHashTailSegs
  rw [hcy, hy]
  constructor
  · intro h
    refine ⟨?_, ?_⟩
    · have := h (c :: s) (List.mem_cons_self _ _)
      rwa [pyStartsWith_hash_cons] at this
    · intro seg hseg
      exact h seg (List.mem_cons_of_mem _ hseg)
  · rintro ⟨h1, h2⟩ seg hseg
    cases hseg with
    | head => rw [pyStartsWith_hash_cons]; exact h1
    | tail _ hm => exact h2 seg hm

theorem noHashTailSegs_cons_ne (c : Char) (y : PyStr) (hc : c ≠ '\n') :
    noHashTailSegs (c :: y) ↔ noHashTailSegs y := by
  obtain ⟨s, ss, hy, hcy⟩ := segsNL_cons_ne c y hc
  unfold noHashTailSegs
  rw [hcy, hy]
  exact Iff.rfl

theorem noHashSegs_weaken (x : PyStr) (h : noHashSegs x) : noHashTailSegs x := by
  intro seg hseg
  exact h seg (List.mem_of_mem_tail hseg)

theorem noHashTailSegs_nil : noHashTailSegs [] := by
  intro seg hseg
  cases hseg

theorem noHashSegs_nil : noHashSegs [] := by
  intro seg hseg
  rw [show segsNL [] = [[]] from rfl] at hseg
  rw [List.mem_singleton] at hseg
  subst hseg
  exact pyStartsWith_hash_nil

theorem noHashTailSegs_tail (c : Char) (x : PyStr)
    (h : noHashTailSegs (c :: x)) : noHashTailSegs x := by
  by_cases hc : c = '\n'
  · subst hc
    exact noHashSegs_weaken x ((noHashTailSegs_cons_nl x).mp h)
  · exact (noHashTailSegs_cons_ne c x hc).mp h

theorem noHashTailSegs_dropWhile (p : Char → Bool) (x : PyStr)
    (h : noHashTailSegs x) : noHashTailSegs (x.dropWhile p) := by
  induction x with
  | nil => exact h
  | cons c rest ih =>
    rw [List.dropWhile_cons]
    split
    · exact ih (noHashTailSegs_tail c rest h)
    · exact h

theorem noHashSegs_iff (x : PyStr) :
    noHashSegs x ↔ (pyStartsWith ['#'] x = false ∧ noHashTailSegs x) := by
  cases x with
  | nil =>
    constructor
    · intro h
      exact ⟨pyStartsWith_hash_nil, noHashSegs_weaken [] h⟩
    · intro _
      exact noHashSegs_nil
  | cons c y =>
    by_cases hc : c = '\n'
    · subst hc
      rw [noHashSegs_cons_nl, noHashTailSegs_cons_nl]
      rw [show pyStartsWith ['#'] ('\n' :: y) = false from by
        rw [pyStartsWith_hash_cons]; decide]
      simp
    · rw [noHashSegs_cons_ne c y hc, noHashTailSegs_cons_ne c y hc,
        pyStartsWith_hash_cons]

theorem noHash_take (x : PyStr) : ∀ m : Nat,
    (noHashTailSegs x → noHashTailSegs (x.take m)) ∧
    (noHashSegs x → noHashSegs (x.take m)) := by
  induction x with
  | nil =>
    intro m
    rw [List.take_nil]
    exact ⟨fun h => h, fun h => h⟩
  | cons c rest ih =>
    intro m
    cases m with
    | zero =>
      rw [List.take_zero]
      exact ⟨fun _ => noHashTailSegs_nil, fun _ => noHashSegs_nil⟩
    | succ m' =>
      rw [List.take_succ_cons]
      by_cases hc : c = '\n'
      · subst hc
        constructor
        · intro h
          rw [noHashTailSegs_cons_nl] at h ⊢
          exact (ih m').2 h
        · intro h
          rw [noHashSegs_cons_nl] at h ⊢
          exact (ih m').2 h
      · constructor
        · intro h
          rw [noHashTailSegs_cons_ne c _ hc] at h ⊢
          exact (ih m').1 h
        · intro h
          rw [noHashSegs_cons_ne c _ hc] at h ⊢
          exact ⟨h.1, (ih m').1 h.2⟩

theorem dropWhile_eq_suffix (p : Char → Bool) (l : List Char) :
    ∃ t, t ++ l.dropWhile p = l := by
  induction l with
  | nil => exact ⟨[], rfl⟩
  | cons c rest ih =>
    rw [List.dropWhile_cons]
    split
    · obtain ⟨t, ht⟩ := ih
      exact ⟨c :: t, by rw [List.cons_append, ht]⟩
    · exact ⟨[], rfl⟩

theorem rstrip_eq_take (x : PyStr) : ∃ m, rstrip x = x.take m := by
  obtain ⟨t, ht⟩ := dropWhile_eq_suffix isPyWS x.reverse
  have hx : x = rstrip x ++ t.reverse := by
    calc x = x.reverse.reverse := (List.reverse_reverse x).symm
    _ = (t ++ x.reverse.dropWhile isPyWS).reverse := by rw [ht]
    _ = (x.reverse.dropWhile isPyWS).reverse ++ t.reverse := by
        rw [List.reverse_append]
    _ = rstrip x ++ t.reverse := rfl
  refine ⟨(rstrip x).length, ?_⟩
  calc rstrip x = (rstrip x ++ t.reverse).take (rstrip x).length :=
    (List.take_left _ _).symm
  _ = x.take (rstrip x).length := by rw [← hx]

theorem strip_noHashSegs (c : PyStr) (h : noHashSegs c)
    (hhead : pyStartsWith ['#'] (pyStrip c) = false) :
    noHashSegs (pyStrip c) := by
  have t1 : noHashTailSegs c := noHashSegs_weaken c h
  have t2 : noHashTailSegs (lstrip c) := noHashTailSegs_dropWhile isPyWS c t1
  have t3 : noHashTailSegs (pyStrip c) := by
    obtain ⟨m, hm⟩ := rstrip_eq_take (lstrip c)
    show noHashTailSegs (rstrip (lstrip c))
    rw [hm]
    exact (noHash_take (lstrip c) m).1 t2
  exact (noHashSegs_iff (pyStrip c)).mpr ⟨hhead, t3⟩

/-! ### shape of parsed sections -/

theorem mem_joinNL (ls : List PyStr) (c : Char) (h : c ∈ joinNL ls) :
    c = '\n' ∨ ∃ l ∈ ls, c ∈ l := by
  induction ls with
  | nil => cases h
  | cons s rest ih =>
    cases rest with
    | nil =>
      right
      exact ⟨s, List.mem_cons_self s [], h⟩
    | cons t ts =>
      rw [joinNL_cons s (t :: ts) (fun hh => by cases hh)] at h
      rw [List.mem_append] at h
      cases h with
      | inl h1 => exact Or.inr ⟨s, List.mem_cons_self s _, h1⟩
      | inr h2 =>
        cases h2 with
        | head => exact Or.inl rfl
        | tail _ hm =>
          cases ih hm with
          | inl h3 => exact Or.inl h3
          | inr h4 =>
            obtain ⟨l, hl, hcl⟩ := h4
            exact Or.inr ⟨l, List.mem_cons_of_mem s hl, hcl⟩

theorem joinNL_onlyNL (ls : List PyStr) (h : ∀ l ∈ ls, breakFree l) :
    onlyNL (joinNL ls) := by
  intro c hc hbreak
  cases mem_joinNL ls c hc with
  | inl h1 => exact h1
  | inr h2 =>
    obtain ⟨l, hl, hcl⟩ := h2
    rw [h l hl c hcl] at hbreak
    cases hbreak

theorem joinNL_noHashSegs (ls : List PyStr) (hbf : ∀ l ∈ ls, breakFree l)
    (hnh : ∀ l ∈ ls, pyStartsWith ['#'] l = false) :
    noHashSegs (joinNL ls) := by
  cases ls with
  | nil => exact noHashSegs_nil
  | cons s rest =>
    intro seg hseg
    rw [segsNL_joinNL (s :: rest) (fun hh => by cases hh)
      (fun l hl c hc => breakFree_ne_nl c (hbf l hl c hc))] at hseg
    exact hnh seg hseg

theorem mem_insertOD (acc : Sections) (k v : PyStr) (q : PyStr × PyStr)
    (h : q ∈ insertOD acc k v) : q ∈ acc ∨ q = (k, v) := by
  unfold insertOD at h
  split at h
  · rw [List.mem_map] at h
    obtain ⟨p, hp, hq⟩ := h
    by_cases he : (p.1 == k) = true
    · rw [if_pos he] at hq
      right
      rw [← hq, beq_iff_eq.mp he]
    · rw [if_neg he] at hq
      exact Or.inl (hq ▸ hp)
  · rw [List.mem_append] at h
    cases h with
    | inl h1 => exact Or.inl h1
    | inr h2 =>
      rw [List.mem_singleton] at h2
      exact Or.inr h2

theorem flush_wellFormed (sec : Option PyStr) (content : List PyStr)
    (acc : Sections)
    (hsec : ∀ s, sec = some s → breakFree s ∧ pyStartsWith ['#'] s = true)
    (hcontent : ∀ l ∈ content, breakFree l ∧ pyStartsWith ['#'] l = false)
    (hacc : ∀ p ∈ acc, wellFormedEntry p) :
    ∀ p ∈ flushSection sec content acc, wellFormedEntry p := by
  cases sec with
  | none => exact hacc
  | some s =>
    intro p hp
    cases mem_insertOD acc s (joinNL content) p hp with
    | inl h1 => exact hacc p h1
    | inr h2 =>
      subst h2
      obtain ⟨hbf, hhash⟩ := hsec s rfl
      exact ⟨hbf, hhash,
        joinNL_onlyNL content (fun l hl => (hcontent l hl).1),
        joinNL_noHashSegs content (fun l hl => (hcontent l hl).1)
          (fun l hl => (hcontent l hl).2)⟩

theorem loadGo_wellFormed (lines : List PyStr)
    (hlines : ∀ l ∈ lines, breakFree l) :
    ∀ (sec : Option PyStr) (content : List PyStr) (acc : Sections),
    (∀ s, sec = some s → breakFree s ∧ pyStartsWith ['#'] s = true) →
    (∀ l ∈ content, breakFree l ∧ pyStartsWith ['#'] l = false) →
    (∀ p ∈ acc, wellFormedEntry p) →
    ∀ p ∈ loadGo sec content acc lines, wellFormedEntry p := by
  induction lines with
  | nil =>
    intro sec content acc hsec hcontent hacc
    exact flush_wellFormed sec content acc hsec hcontent hacc
  | cons l rest ih =>
    intro sec content acc hsec hcontent hacc
    by_cases hl : pyStartsWith ['#'] l = true
    · rw [show loadGo sec content acc (l :: rest) =
        loadGo (some l) [] (flushSection sec content acc) rest from by
        rw [loadGo]
        exact if_pos hl]
      exact ih (fun l' hl' => hlines l' (List.mem_cons_of_mem l hl'))
        (some l) [] (flushSection sec content acc)
        (fun s hs => by
          cases hs
          exact ⟨hlines l (List.mem_cons_self l rest), hl⟩)
        (fun l' hl' => by cases hl')
        (flush_wellFormed sec content acc hsec hcontent hacc)
    · rw [show loadGo sec content acc (l :: rest) =
        loadGo sec (content ++ [l]) acc rest from by
        rw [loadGo]
        exact if_neg hl]
      refine ih (fun l' hl' => hlines l' (List.mem_cons_of_mem l hl'))
        sec (content ++ [l]) acc hsec ?_ hacc
      intro l' hl'
      rw [List.mem_append] at hl'
      cases hl' with
      | inl h1 => exact hcontent l' h1
      | inr h2 =>
        rw [List.mem_singleton] at h2
        subst h2
        exact ⟨hlines l' (List.mem_cons_self _ rest), Bool.eq_false_iff.mpr hl⟩

theorem parse_wellFormed (text : PyStr) :
    ∀ p ∈ Readme.load_existing text, wellFormedEntry p :=
  loadGo_wellFormed (splitlines text) (splitlines_breakFree text)
    none [] [] (fun s hs => by cases hs) (fun l hl => by cases hl)
    (fun p hp => by cases hp)

/-! ### re-parsing the saved text -/

theorem loadGo_consume (blk : List PyStr)
    (hblk : ∀ l ∈ blk, pyStartsWith ['#'] l = false) :
    ∀ (sec : Option PyStr) (cs : List PyStr) (acc : Sections) (ls : List PyStr),
    loadGo sec cs acc (blk ++ ls) = loadGo sec (cs ++ blk) acc ls := by
  induction blk with
  | nil =>
    intro sec cs acc ls
    rw [List.nil_append, List.append_nil]
  | cons l bs ih =>
    intro sec cs acc ls
    rw [List.cons_append]
    rw [show loadGo sec cs acc (l :: (bs ++ ls)) =
      loadGo sec (cs ++ [l]) acc (bs ++ ls) from by
      rw [loadGo]
      exact if_neg (by
        rw [hblk l (List.mem_cons_self l bs)]
        exact fun hh => Bool.false_ne_true hh)]
    rw [ih (fun l' hl' => hblk l' (List.mem_cons_of_mem l hl')) sec (cs ++ [l])]
    rw [List.append_assoc]
    rfl

theorem joinNL_append_single (xs : List PyStr) (y : PyStr) (hne : xs ≠ []) :
    joinNL (xs ++ [y]) = joinNL xs ++ '\n' :: y := by
  induction xs with
  | nil => exact absurd rfl hne
  | cons x rest ih =>
    cases rest with
    | nil => rfl
    | cons t ts =>
      rw [List.cons_append,
        joinNL_cons x ((t :: ts) ++ [y]) (by simp),
        joinNL_cons x (t :: ts) (fun hh => by cases hh),
        ih (fun hh => by cases hh)]
      simp

theorem insertOD_append_of_not_mem (acc : Sections) (k v : PyStr)
    (h : k ∉ keysOD acc) : insertOD acc k v = acc ++ [(k, v)] := by
  unfold insertOD
  rw [if_neg (fun hc => h ((containsKey_iff_mem acc k).mp hc))]

theorem mem_keys_insertOD (acc : Sections) (k v q : PyStr)
    (h : q ∈ keysOD (insertOD acc k v)) : q ∈ keysOD acc ∨ q = k := by
  rw [keysOD_insertOD] at h
  split at h
  · exact Or.inl h
  · rw [List.mem_append] at h
    cases h with
    | inl h1 => exact Or.inl h1
    | inr h2 =>
      rw [List.mem_singleton] at h2
      exact Or.inr h2

theorem loadGo_savedLines (s : Sections) :
    ∀ (h : PyStr) (cs : List PyStr) (acc : Sections),
    (∀ p ∈ s, pyStartsWith ['#'] (pyStrip p.1) = true ∧
      noHashSegs (pyStrip p.2)) →
    (s.map (fun p => pyStrip p.1)).Nodup →
    (∀ p ∈ s, pyStrip p.1 ∉ keysOD acc ∧ pyStrip p.1 ≠ h) →
    loadGo (some h) cs acc (savedLines s) =
      insertOD acc h (joinNL cs) ++ reparsed s := by
  induction s with
  | nil =>
    intro h cs acc _ _ _
    show flushSection (some h) cs acc = insertOD acc h (joinNL cs) ++ []
    rw [List.append_nil]
    rfl
  | cons p rest ih =>
    intro h cs acc hshape hnodup hfresh
    obtain ⟨hK, hC⟩ := hshape p (List.mem_cons_self p rest)
    have hblk : ∀ l ∈ ([] : PyStr) :: segsNL (pyStrip p.2) ++
        (if rest.isEmpty then [] else [([] : PyStr)]),
        pyStartsWith ['#'] l = false := by
      intro l hl
      rw [show (([] : PyStr) :: segsNL (pyStrip p.2)) ++
        (if rest.isEmpty then [] else [([] : PyStr)]) =
        ([] : PyStr) :: (segsNL (pyStrip p.2) ++
          (if rest.isEmpty then [] else [([] : PyStr)])) from rfl] at hl
      rw [List.mem_cons] at hl
      rcases hl with rfl | hm
      · exact pyStartsWith_hash_nil
      · rw [List.mem_append] at hm
        rcases hm with h1 | h2
        · exact hC l h1
        · split at h2
          · cases h2
          · rw [List.mem_singleton] at h2
            subst h2
            exact pyStartsWith_hash_nil
    rw [show savedLines (p :: rest) = pyStrip p.1 ::
      ((([] : PyStr) :: segsNL (pyStrip p.2) ++
        (if rest.isEmpty then [] else [([] : PyStr)])) ++ savedLines rest)
      from rfl]
    rw [show loadGo (some h) cs acc (pyStrip p.1 ::
        ((([] : PyStr) :: segsNL (pyStrip p.2) ++
          (if rest.isEmpty then [] else [([] : PyStr)])) ++ savedLines rest)) =
      loadGo (some (pyStrip p.1)) [] (flushSection (some h) cs acc)
        ((([] : PyStr) :: segsNL (pyStrip p.2) ++
          (if rest.isEmpty then [] else [([] : PyStr)])) ++ savedLines rest)
      from by
      rw [loadGo]
      exact if_pos hK]
    rw [loadGo_consume _ hblk (some (pyStrip p.1)) []
      (flushSection (some h) cs acc) (savedLines rest)]
    have hnodup' := List.nodup_cons.mp (by
      rw [List.map_cons] at hnodup
      exact hnodup)
    have hfresh' : ∀ q ∈ rest, pyStrip q.1 ∉
        keysOD (insertOD acc h (joinNL cs)) ∧ pyStrip q.1 ≠ pyStrip p.1 := by
      intro q hq
      constructor
      · intro hmem
        cases mem_keys_insertOD acc h (joinNL cs) (pyStrip q.1) hmem with
        | inl h1 => exact (hfresh q (List.mem_cons_of_mem p hq)).1 h1
        | inr h2 => exact (hfresh q (List.mem_cons_of_mem p hq)).2 h2
      · intro heq
        exact hnodup'.1 (heq ▸ List.mem_map_of_mem (fun p => pyStrip p.1) hq)
    rw [show flushSection (some h) cs acc = insertOD acc h (joinNL cs) from rfl]
    rw [ih (pyStrip p.1) ([] ++ (([] : PyStr) :: segsNL (pyStrip p.2) ++
        (if rest.isEmpty then [] else [([] : PyStr)])))
      (insertOD acc h (joinNL cs))
      (fun q hq => hshape q (List.mem_cons_of_mem p hq))
      hnodup'.2 hfresh']
    have hKfresh : pyStrip p.1 ∉ keysOD (insertOD acc h (joinNL cs)) := by
      intro hmem
      cases mem_keys_insertOD acc h (joinNL cs) (pyStrip p.1) hmem with
      | inl h1 => exact (hfresh p (List.mem_cons_self p rest)).1 h1
      | inr h2 => exact (hfresh p (List.mem_cons_self p rest)).2 h2
    rw [insertOD_append_of_not_mem _ _ _ hKfresh]
    have hval : joinNL ([] ++ (([] : PyStr) :: segsNL (pyStrip p.2) ++
        (if rest.isEmpty then [] else [([] : PyStr)]))) =
        '\n' :: (pyStrip p.2 ++ if rest.isEmpty then [] else ['\n']) := by
      rw [List.nil_append]
      cases rest with
      | nil =>
        rw [show (List.isEmpty ([] : Sections)) = true from rfl, if_pos rfl,
          if_pos rfl, List.append_nil, List.append_nil]
        rw [joinNL_cons [] (segsNL (pyStrip p.2)) (segsNL_ne_nil _)]
        rw [joinNL_segsNL]
        rfl
      | cons q qs =>
        rw [show (List.isEmpty (q :: qs)) = false from rfl]
        rw [if_neg (fun hh : false = true => by cases hh),
          if_neg (fun hh : false = true => by cases hh)]
        rw [joinNL_append_single (([] : PyStr) :: segsNL (pyStrip p.2)) []
          (fun hh => by cases hh)]
        rw [joinNL_cons [] (segsNL (pyStrip p.2)) (segsNL_ne_nil _),
          joinNL_segsNL]
        rfl
    rw [hval]
    rw [show reparsed (p :: rest) = (pyStrip p.1,
      '\n' :: (pyStrip p.2 ++ if rest.isEmpty then [] else ['\n'])) ::
      reparsed rest from by rw [reparsed]]
    simp [List.append_assoc]

theorem segsNL_mem_chars (x : PyStr) :
    ∀ seg ∈ segsNL x, ∀ c ∈ seg, c ∈ x ∧ c ≠ '\n' := by
  induction x with
  | nil =>
    intro seg hseg c hc
    rw [show segsNL [] = [[]] from rfl, List.mem_singleton] at hseg
    subst hseg
    cases hc
  | cons a y ih =>
    intro seg hseg c hc
    by_cases ha : a = '\n'
    · subst ha
      rw [segsNL_cons_nl, List.mem_cons] at hseg
      rcases hseg with rfl | hm
      · cases hc
      · obtain ⟨h1, h2⟩ := ih seg hm c hc
        exact ⟨List.mem_cons_of_mem _ h1, h2⟩
    · obtain ⟨s, ss, hy, hay⟩ := segsNL_cons_ne a y ha
      rw [hay, List.mem_cons] at hseg
      rcases hseg with rfl | hm
      · rw [List.mem_cons] at hc
        rcases hc with rfl | hcs
        · exact ⟨List.mem_cons_self _ _, ha⟩
        · obtain ⟨h1, h2⟩ := ih s (hy ▸ List.mem_cons_self s ss) c hcs
          exact ⟨List.mem_cons_of_mem _ h1, h2⟩
      · obtain ⟨h1, h2⟩ := ih seg (hy ▸ List.mem_cons_of_mem s hm) c hc
        exact ⟨List.mem_cons_of_mem _ h1, h2⟩

theorem load_save_reparsed (s : Sections)
    (hwf : ∀ p ∈ s, wellFormedEntry p)
    (hbodies : ∀ p ∈ s, pyStartsWith ['#'] (pyStrip p.2) = false)
    (hnodup : (s.map (fun p => pyStrip p.1)).Nodup) :
    Readme.load_existing (Readme.save s) = reparsed s := by
  have hshape1 : ∀ p ∈ s, breakFree (pyStrip p.1) ∧
      ∀ c ∈ segsNL (pyStrip p.2), breakFree c := by
    intro p hp
    obtain ⟨h1, _, h3, _⟩ := hwf p hp
    constructor
    · intro c hc
      exact h1 c (mem_pyStrip _ c hc)
    · intro seg hseg c hc
      obtain ⟨hcx, hcnl⟩ := segsNL_mem_chars (pyStrip p.2) seg hseg c hc
      cases hbr : isLineBreak c with
      | false => rfl
      | true => exact absurd (h3 c (mem_pyStrip _ c hcx) hbr) hcnl
  have hshape2 : ∀ p ∈ s, pyStartsWith ['#'] (pyStrip p.1) = true ∧
      noHashSegs (pyStrip p.2) := by
    intro p hp
    obtain ⟨_, h2, _, h4⟩ := hwf p hp
    exact ⟨pyStrip_hash_head p.1 h2, strip_noHashSegs p.2 h4 (hbodies p hp)⟩
  show loadLines (splitlines (Readme.save s)) = reparsed s
  rw [splitlines_save s hshape1]
  cases s with
  | nil => rfl
  | cons p rest =>
    obtain ⟨hK, hC⟩ := hshape2 p (List.mem_cons_self p rest)
    have hblk : ∀ l ∈ ([] : PyStr) :: segsNL (pyStrip p.2) ++
        (if rest.isEmpty then [] else [([] : PyStr)]),
        pyStartsWith ['#'] l = false := by
      intro l hl
      rw [show (([] : PyStr) :: segsNL (pyStrip p.2)) ++
        (if rest.isEmpty then [] else [([] : PyStr)]) =
        ([] : PyStr) :: (segsNL (pyStrip p.2) ++
          (if rest.isEmpty then [] else [([] : PyStr)])) from rfl] at hl
      rw [List.mem_cons] at hl
      rcases hl with rfl | hm
      · exact pyStartsWith_hash_nil
      · rw [List.mem_append] at hm
        rcases hm with h1 | h2
        · exact hC l h1
        · split at h2
          · cases h2
          · rw [List.mem_singleton] at h2
            subst h2
            exact pyStartsWith_hash_nil
    show loadGo none [] [] (savedLines (p :: rest)) = reparsed (p :: rest)
    rw [show savedLines (p :: rest) = pyStrip p.1 ::
      ((([] : PyStr) :: segsNL (pyStrip p.2) ++
        (if rest.isEmpty then [] else [([] : PyStr)])) ++ savedLines rest)
      from rfl]
    rw [show loadGo none [] [] (pyStrip p.1 ::
        ((([] : PyStr) :: segsNL (pyStrip p.2) ++
          (if rest.isEmpty then [] else [([] : PyStr)])) ++ savedLines rest)) =
      loadGo (some (pyStrip p.1)) [] []
        ((([] : PyStr) :: segsNL (pyStrip p.2) ++
          (if rest.isEmpty then [] else [([] : PyStr)])) ++ savedLines rest)
      from by
      rw [loadGo]
      exact if_pos hK]
    rw [loadGo_consume _ hblk (some (pyStrip p.1)) [] [] (savedLines rest)]
    have hnodup' := List.nodup_cons.mp (by
      rw [List.map_cons] at hnodup
      exact hnodup)
    rw [loadGo_savedLines rest (pyStrip p.1) _ []
      (fun q hq => hshape2 q (List.mem_cons_of_mem p hq)) hnodup'.2
      (fun q hq => ⟨(fun hmem => by cases hmem),
        (fun heq => hnodup'.1
          (heq ▸ List.mem_map_of_mem (fun p => pyStrip p.1) hq))⟩)]
    have hval : joinNL ([] ++ (([] : PyStr) :: segsNL (pyStrip p.2) ++
        (if rest.isEmpty then [] else [([] : PyStr)]))) =
        '\n' :: (pyStrip p.2 ++ if rest.isEmpty then [] else ['\n']) := by
      rw [List.nil_append]
      cases rest with
      | nil =>
        rw [show (List.isEmpty ([] : Sections)) = true from rfl, if_pos rfl,
          if_pos rfl, List.append_nil, List.append_nil]
        rw [joinNL_cons [] (segsNL (pyStrip p.2)) (segsNL_ne_nil _)]
        rw [joinNL_segsNL]
        rfl
      | cons q qs =>
        rw [show (List.isEmpty (q :: qs)) = false from rfl]
        rw [if_neg (fun hh : false = true => by cases hh),
          if_neg (fun hh : false = true => by cases hh)]
        rw [joinNL_append_single (([] : PyStr) :: segsNL (pyStrip p.2)) []
          (fun hh => by cases hh)]
        rw [joinNL_cons [] (segsNL (pyStrip p.2)) (segsNL_ne_nil _),
          joinNL_segsNL]
        rfl
    rw [hval]
    rw [show insertOD [] (pyStrip p.1)
        ('\n' :: (pyStrip p.2 ++ if rest.isEmpty then [] else ['\n'])) =
      [(pyStrip p.1,
        '\n' :: (pyStrip p.2 ++ if rest.isEmpty then [] else ['\n']))] from by
      rw [insertOD_append_of_not_mem _ _ _ (fun hmem => by cases hmem)]
      rfl]
    rw [show reparsed (p :: rest) = (pyStrip p.1,
      '\n' :: (pyStrip p.2 ++ if rest.isEmpty then [] else ['\n'])) ::
      reparsed rest from by rw [reparsed]]
    rfl

theorem reparsed_keys (s : Sections) :
    keysOD (reparsed s) = (keysOD s).map pyStrip := by
  induction s with
  | nil => rfl
  | cons p rest ih =>
    rw [show reparsed (p :: rest) = (pyStrip p.1,
      '\n' :: (pyStrip p.2 ++ if rest.isEmpty then [] else ['\n'])) ::
      reparsed rest from by rw [reparsed]]
    show pyStrip p.1 :: keysOD (reparsed rest) = _
    rw [ih]
    rfl

theorem reparsed_body_strip (c : PyStr) (sep : PyStr)
    (hsep : sep = [] ∨ sep = ['\n']) :
    pyStrip ('\n' :: (pyStrip c ++ sep)) = pyStrip c := by
  rcases hsep with rfl | rfl
  · rw [List.append_nil, pyStrip_cons_nl, pyStrip_idem]
  · rw [pyStrip_cons_nl, pyStrip_append_nl, pyStrip_idem]

theorem reparsed_lookup (s : Sections)
    (hnodup : (s.map (fun p => pyStrip p.1)).Nodup) :
    ∀ k ∈ keysOD s,
    Option.map pyStrip (lookupOD (reparsed s) (pyStrip k)) =
      Option.map pyStrip (lookupOD s k) := by
  induction s with
  | nil => intro k hk; cases hk
  | cons p rest ih =>
    intro k hk
    have hnodup' := List.nodup_cons.mp (by
      rw [List.map_cons] at hnodup
      exact hnodup)
    rw [show reparsed (p :: rest) = (pyStrip p.1,
      '\n' :: (pyStrip p.2 ++ if rest.isEmpty then [] else ['\n'])) ::
      reparsed rest from by rw [reparsed]]
    by_cases he : k = p.1
    · subst he
      have h1 : lookupOD ((pyStrip p.1,
          '\n' :: (pyStrip p.2 ++ if rest.isEmpty then [] else ['\n'])) ::
          reparsed rest) (pyStrip p.1) =
          some ('\n' :: (pyStrip p.2 ++ if rest.isEmpty then [] else ['\n'])) := by
        show (if pyStrip p.1 == pyStrip p.1 then
          some ('\n' :: (pyStrip p.2 ++ if rest.isEmpty then [] else ['\n']))
          else lookupOD (reparsed rest) (pyStrip p.1)) = _
        rw [if_pos (beq_iff_eq.mpr rfl)]
      have h2 : lookupOD (p :: rest) p.1 = some p.2 := by
        show (if p.1 == p.1 then some p.2 else lookupOD rest p.1) = _
        rw [if_pos (beq_iff_eq.mpr rfl)]
      rw [h1, h2]
      show some (pyStrip ('\n' ::
        (pyStrip p.2 ++ if rest.isEmpty then [] else ['\n']))) =
        some (pyStrip p.2)
      rw [reparsed_body_strip p.2 _ (by
        cases rest with
        | nil => exact Or.inl rfl
        | cons q qs => exact Or.inr rfl)]
    · have hk' : k ∈ keysOD rest := by
        rw [show keysOD (p :: rest) = p.1 :: keysOD rest from rfl,
          List.mem_cons] at hk
        exact hk.resolve_left he
      have hks : pyStrip k ∈ List.map (fun p => pyStrip p.1) rest := by
        obtain ⟨q, hq, hqk⟩ := List.mem_map.mp hk'
        exact List.mem_map.mpr ⟨q, hq, by rw [hqk]⟩
      have hstrip_ne : pyStrip k ≠ pyStrip p.1 := by
        intro heq
        exact hnodup'.1 (heq ▸ hks)
      rw [show lookupOD ((pyStrip p.1,
          '\n' :: (pyStrip p.2 ++ if rest.isEmpty then [] else ['\n'])) ::
          reparsed rest) (pyStrip k) =
        lookupOD (reparsed rest) (pyStrip k) from by
        show (if pyStrip p.1 == pyStrip k then
          some ('\n' :: (pyStrip p.2 ++ if rest.isEmpty then [] else ['\n']))
          else lookupOD (reparsed rest) (pyStrip k)) = _
        rw [if_neg (fun hb => hstrip_ne (beq_iff_eq.mp hb).symm)]]
      rw [show lookupOD (p :: rest) k = lookupOD rest k from by
        show (if p.1 == k then some p.2 else lookupOD rest k) = _
        rw [if_neg (fun hb => he (beq_iff_eq.mp hb).symm)]]
      exact ih hnodup'.2 k hk'

/-- C1 (amended): parse→render→parse reproduces the section structure up to
whitespace-trimming, provided (i) no two heading lines of the original parse
collapse to the same line under trimming, and (ii) no section body, once
trimmed, starts with the heading marker `'#'` (leading whitespace hiding a
heading line at the start of a body is re-exposed by `save` and changes the
section boundaries, as the counterexample shows).  Under these conditions the
re-parsed keys are exactly the trimmed original keys in order, and each
re-parsed body agrees with the original body up to trimming. -/
theorem parse_render_parse_agrees (text : PyStr)
    (hnodup : ((keysOD (Readme.load_existing text)).map pyStrip).Nodup)
    (hbodies : ∀ p ∈ Readme.load_existing text,
      pyStartsWith ['#'] (pyStrip p.2) = false) :
    keysOD (Readme.load_existing (Readme.save (Readme.load_existing text))) =
      (keysOD (Readme.load_existing text)).map pyStrip ∧
    ∀ k ∈ keysOD (Readme.load_existing text),
      Option.map pyStrip (lookupOD (Readme.load_existing
        (Readme.save (Readme.load_existing text))) (pyStrip k)) =
      Option.map pyStrip (lookupOD (Readme.load_existing text) k) := by
  have hwf := parse_wellFormed text
  have hnodup' : ((Readme.load_existing text).map
      (fun p => pyStrip p.1)).Nodup := by
    rw [show keysOD (Readme.load_existing text) =
      (Readme.load_existing text).map (·.1) from rfl, List.map_map] at hnodup
    exact hnodup
  have hls := load_save_reparsed (Readme.load_existing text) hwf hbodies hnodup'
  constructor
  · rw [hls, reparsed_keys]
  · intro k hk
    rw [hls]
    exact reparsed_lookup (Readme.load_existing text) hnodup' k hk

/-- Counterexample for C1 as stated: in `"# T\n  ## License\nx"` the body of
`# T` starts, after trimming, with an exposed `## License` heading, so the
re-parse of the rendered text has two sections where the original parse had
one — the section boundaries do not agree. -/
theorem parse_render_parse_counterexample :
    ¬ (keysOD (Readme.load_existing (Readme.save (Readme.load_existing
          ("# T\n  ## License\nx".toList)))) =
        (keysOD (Readme.load_existing ("# T\n  ## License\nx".toList))).map
          pyStrip ∧
      ∀ k ∈ keysOD (Readme.load_existing ("# T\n  ## License\nx".toList)),
        Option.map pyStrip (lookupOD (Readme.load_existing
          (Readme.save (Readme.load_existing ("# T\n  ## License\nx".toList))))
          (pyStrip k)) =
        Option.map pyStrip (lookupOD
          (Readme.load_existing ("# T\n  ## License\nx".toList)) k)) :=
  fun h => absurd h.1 (by decide)

/-- Witness for the amended C1 on a well-behaved README. -/
theorem parse_render_parse_agrees_witness :
    keysOD (Readme.load_existing (Readme.save (Readme.load_existing
        ("# Social Auth\n\nIntro text.\n\n## License\n\nBSD.\n".toList)))) =
      (keysOD (Readme.load_existing
        ("# Social Auth\n\nIntro text.\n\n## License\n\nBSD.\n".toList))).map
        pyStrip ∧
    ∀ k ∈ keysOD (Readme.load_existing
        ("# Social Auth\n\nIntro text.\n\n## License\n\nBSD.\n".toList)),
      Option.map pyStrip (lookupOD (Readme.load_existing
        (Readme.save (Readme.load_existing
          ("# Social Auth\n\nIntro text.\n\n## License\n\nBSD.\n".toList))))
        (pyStrip k)) =
      Option.map pyStrip (lookupOD (Readme.load_existing
        ("# Social Auth\n\nIntro text.\n\n## License\n\nBSD.\n".toList)) k) :=
  parse_render_parse_agrees
    ("# Social Auth\n\nIntro text.\n\n## License\n\nBSD.\n".toList)
    (by decide) (by decide)
